import Mathlib

/-!
# Verification of the `ts-document` schema-extraction engine

Shallow embedding of `src/generate.ts` of the `ts-document` repository.

The source is TypeScript built on `ts-morph`.  Pure string processing
(`extractFromPropertyText` and its regex, the `import(...)` qualifier
stripping) is embedded verbatim as executable character-level functions.
The `ts-morph` object graph (declarations, types, symbols) is embedded as a
finite environment `Env` of numbered nodes whose fields record exactly the
observations `generate.ts` makes of the corresponding `ts-morph` objects
(`getName`, `getJsDocs()[0]?.getTags()`, `getType`, declarations' source
file path, union/intersection members, interface properties, descendant
type nodes, raw declaration text, start line number, ...).  The mutable
`Set`/`Array` state threaded through `dumpNestedTypes` becomes explicit
state passing over `St`; recursion is fuel-indexed, and the fuel is proved
irrelevant once it exceeds the number of nodes (claim C1).
-/

namespace TsDoc

/-- A documentation tag `{name, value}` (`TagType` of `interface.ts`). -/
structure TagType where
  name : String
  value : String
deriving DecidableEq, Repr

/-- One part of a compiler documentation comment (a `SymbolDisplayPart`):
its `kind` and `text` fields as observed by `getSymbolTags`. -/
structure DocPart where
  kind : String
  text : String
deriving DecidableEq, Repr

/-- `const KEYWORDS_TO_SKIP = ['Omit']` from `generate.ts`. -/
def KEYWORDS_TO_SKIP : List String := ["Omit"]

/-- `const TAG_NAMES_FOR_DESCRIPTION = ['zh', 'en']` from `generate.ts`. -/
def TAG_NAMES_FOR_DESCRIPTION : List String := ["zh", "en"]

/-- JavaScript truthiness of a possibly-absent string: `undefined` and the
empty string are falsy; a truthy check on an `Option String` therefore
yields the value only when present and non-empty. -/
def jsTruthyS : Option String → Option String
  | some s => if s = "" then none else some s
  | none => none

/-- Result of `getDeclarationTags`: the surfaced `title` and the tag list. -/
structure DeclTags where
  title : Option String
  tags : List TagType
deriving DecidableEq, Repr

/-- `getDeclarationTags` of `generate.ts`: iterate the first JSDoc block's
tags (the input list models `declaration.getJsDocs()[0]?.getTags() || []`,
each tag already as its `{name, value: tag.getCommentText() || ''}` pair);
every tag is pushed, and each tag named `title` assigns `title = value`. -/
def getDeclarationTags (rawTags : List TagType) : DeclTags :=
  let r := rawTags.foldl
    (fun (acc : Option String × List TagType) tag =>
      (if tag.name = "title" then some tag.value else acc.1, acc.2 ++ [tag]))
    (none, [])
  ⟨r.1, r.2⟩

/-- A `ts-morph` `Symbol` as observed by `generate.ts`: its name, its JSDoc
tags (each already as the `{name, value: tag.text?.[0].text || ''}` pair
built by `getSymbolTags`), its documentation comment parts
(`compilerSymbol.getDocumentationComment(undefined)`), and the node id of
`getDeclarations()[0]`. -/
structure Sym where
  name : String
  jsDocTags : List TagType
  docComment : List DocPart
  decl : Nat
deriving DecidableEq, Repr

/-- `getSymbolTags` of `generate.ts`: start from the symbol's JSDoc tags;
when `strictComment` is false and the first documentation-comment part is a
non-empty `text` part, push a synthetic tag for each name of
`TAG_NAMES_FOR_DESCRIPTION` not already present. -/
def getSymbolTags (sym : Sym) (strictComment : Bool) : List TagType :=
  let tags := sym.jsDocTags
  if strictComment then tags
  else
    match sym.docComment.head? with
    | some commonComment =>
      if commonComment.kind = "text" ∧ commonComment.text ≠ "" then
        TAG_NAMES_FOR_DESCRIPTION.foldl
          (fun acc tagNameForDescription =>
            if (acc.find? (fun t => t.name = tagNameForDescription)).isSome then acc
            else acc ++ [⟨tagNameForDescription, commonComment.text⟩])
          tags
      else tags
    | none => tags

/-! ## The property-text extractor

`extractFromPropertyText` runs
`/(\w+)\s{0,}([?]?)\s{0,}:(.*?);?$/s` (`propertyRegex`) on the raw member
text.  The regex is unanchored, so the engine scans start positions left to
right; at a given start, `\w+` greedily takes a maximal word-character run
(shortening it can never help, since none of `\s`, `?`, `:` is a word
character), then optional whitespace, an optional `?`, optional whitespace,
and a mandatory `:`; the lazy dot-all remainder anchored by `;?$` captures
everything to the end of the string minus at most one trailing `;`. -/

/-- JavaScript `\w`: ASCII letters, digits and underscore. -/
def wordChar (c : Char) : Bool := c.isAlphanum || c = '_'

/-- JavaScript `\s` on the characters that occur in declaration text. -/
def jsSpace (c : Char) : Bool :=
  c = ' ' || c = '\t' || c = '\n' || c = '\r' || c = '\x0b' || c = '\x0c'

/-- `ExtractType` of `generate.ts`. -/
structure ExtractType where
  name : String
  type : String
  isOptional : Bool
deriving DecidableEq, Repr

/-- One attempt of `propertyRegex` at a fixed start position. -/
def matchCandidate (cs : List Char) : Option ExtractType :=
  let run := cs.takeWhile wordChar
  if run.isEmpty then none
  else
    let rest1 := (cs.dropWhile wordChar).dropWhile jsSpace
    let (isOpt, rest2) :=
      match rest1 with
      | '?' :: r => (true, r)
      | _ => (false, rest1)
    let rest3 := rest2.dropWhile jsSpace
    match rest3 with
    | ':' :: tail =>
      let ty := if tail.getLast? = some ';' then tail.dropLast else tail
      some ⟨String.mk run, String.mk ty, isOpt⟩
    | _ => none

/-- `RegExp.prototype.exec`: try every start position left to right. -/
def execProp : List Char → Option ExtractType
  | [] => none
  | c :: cs =>
    match matchCandidate (c :: cs) with
    | some r => some r
    | none => execProp cs

/-- `extractFromPropertyText` of `generate.ts`. -/
def extractFromPropertyText (text : String) : Option ExtractType :=
  execProp text.data

/-! ## The node environment

`generate.ts` navigates the `ts-morph` object graph.  We embed one run's
reachable graph as a finite environment of nodes numbered below `Env.n`;
a single node id stands for a declaration, a type, or a type node, and its
fields record exactly the observations the source makes of it.  Types are
compared by identity (`Set<Type>` membership), hence by node id. -/

/-- A function parameter (`ParameterDeclaration`) as observed by
`getFunctionSchema`: its symbol, `getName()`, `isOptional()`,
`getInitializer()?.getText()`, `getType().getText()`, and its own node id
(the node handed to `dumpNestedTypes`). -/
structure Param where
  sym : Sym
  name : String
  isOptional : Bool
  initializerText : Option String := none
  typeText : String := ""
  declId : Nat := 0
deriving DecidableEq, Repr

/-- One node of the embedded `ts-morph` graph.  Field correspondence:
`name` = `getSymbolByType(t)?.getName()`; `rawTags` = the first JSDoc
block's tags of the node as a declaration; `ty` = `node.getType()`;
`decl` = `getDeclarationBySymbol(getSymbolByType(t))`; `filePath` =
`declaration.getSourceFile()?.getFilePath()`; the five `is*` flags are the
structural tests of `isTarget` (`isAliasDecl` is `isAliasDeclaration`);
`descendants` = the type ids of the descendant type nodes enumerated by
`forEachDescendant`; `subTypes` = `getUnionTypes()`/`getIntersectionTypes()`;
`props` = for an interface declaration, each property's
`getDeclarationBySymbol(a.getSymbol())`; `declText` =
`getDeclarationTextBySymbol` (prettier-formatted print of the declaration);
`text` = `declaration.getText()`; `kindName` = `getKindName()`;
`typeNodeId` = a type alias declaration's `getTypeNode()`; `startLine` =
`getStartLineNumber()`; `ownProps` = the interface's own
`getProperties()` symbols; `checkerProps` =
`typeChecker.getPropertiesOfType(declaration.getType())`; `params` and
`returnText` = a function-shaped node's parameters and
`getReturnType().getText()`. -/
structure NodeM where
  name : Option String := none
  rawTags : List TagType := []
  ty : Nat := 0
  decl : Option Nat := none
  filePath : Option String := none
  isInterface : Bool := false
  isEnum : Bool := false
  isUnion : Bool := false
  isInter : Bool := false
  isAliasDecl : Bool := false
  descendants : List Nat := []
  subTypes : List Nat := []
  props : List (Option Nat) := []
  declText : String := ""
  text : String := ""
  kindName : String := ""
  typeNodeId : Option Nat := none
  startLine : Nat := 0
  ownProps : List Sym := []
  checkerProps : List Sym := []
  params : List Param := []
  returnText : String := ""

/-- A finite node graph: `n` nodes, looked up by id. -/
structure Env where
  n : Nat
  node : Nat → NodeM

/-- Executable well-formedness: every node id referenced by a node below
`n` is itself below `n`. -/
def envWFb (env : Env) : Bool :=
  (List.range env.n).all fun i =>
    let nd := env.node i
    decide (nd.ty < env.n) &&
    (match nd.decl with | some d => decide (d < env.n) | none => true) &&
    nd.descendants.all (fun t => decide (t < env.n)) &&
    nd.subTypes.all (fun u => decide (u < env.n)) &&
    nd.props.all (fun p => match p with | some q => decide (q < env.n) | none => true)

/-! ## Schemas and the resolver state -/

/-- `PropertyType` of `interface.ts` as populated by `generate.ts`
(`initializerText` is only ever set for function parameters; `none` models
both an absent field and JavaScript `null`). -/
structure PropertyType where
  name : String
  type : String := ""
  isOptional : Bool
  tags : List TagType := []
  initializerText : Option String := none
deriving DecidableEq, Repr

/-- The three schema shapes built by `generateSchema`: function
(`{tags, params, returns}`), interface/type-alias (`{tags, data}`), and
nested type (`{tags, data: declaration text, isNestedType: true}`). -/
inductive Schema
  | func (tags : List TagType) (params : List PropertyType) (returns : String)
  | intf (tags : List TagType) (data : List PropertyType)
  | nested (tags : List TagType) (data : String)
deriving DecidableEq, Repr

/-- A `{title, schema}` pair (the unit of `SchemaList`). -/
structure Entry where
  title : String
  schema : Schema
deriving DecidableEq, Repr

/-- The mutable state threaded through `dumpNestedTypes`:
`visited` models the `Set<Type>` `parsedNestedTypes` (JavaScript sets
iterate in insertion order, so a duplicate-free list in insertion order);
`out` models the `nestedTypeList` accumulator, with each pushed entry
paired with the id of the type it was synthesized from (the id component
is a specification-side record of the resolved type's identity; the
program value is the `Entry` component). -/
structure St where
  visited : List Nat
  out : List (Nat × Entry)
deriving DecidableEq, Repr

/-- `Set.prototype.add`: append if not yet present (keeps insertion
order). -/
def setAdd (l : List Nat) (x : Nat) : List Nat :=
  if x ∈ l then l else l ++ [x]

/-- `hasJSDocTitle` of `generate.ts`: when the declaration exists and its
first JSDoc block surfaces a truthy title, add `declaration.getType()` to
the visited set and answer `true`.  (A node on which `getJsDocs` is not
available is modelled by empty `rawTags`.) -/
def hasJSDocTitle (env : Env) (dOpt : Option Nat) (visited : List Nat) :
    Bool × List Nat :=
  match dOpt with
  | some d =>
    match jsTruthyS (getDeclarationTags (env.node d).rawTags).title with
    | some _ => (true, setAdd visited (env.node d).ty)
    | none => (false, visited)
  | none => (false, visited)

/-- Substring test used for `defPath.includes('/node_modules/')`. -/
def startsWithL : List Char → List Char → Bool
  | [], _ => true
  | _ :: _, [] => false
  | a :: as, b :: bs => a = b && startsWithL as bs

/-- `String.prototype.includes` over character lists. -/
def containsSubL (pat : List Char) : List Char → Bool
  | [] => startsWithL pat []
  | c :: cs => startsWithL pat (c :: cs) || containsSubL pat cs

/-- `defPath && defPath.includes('/node_modules/')` of `isTarget`. -/
def declInNodeModules (env : Env) (dOpt : Option Nat) : Bool :=
  match dOpt with
  | some d =>
    match (env.node d).filePath with
    | some p => containsSubL "/node_modules/".data p.data
    | none => false
  | none => false

/-- The structural test at the end of `isTarget`. -/
def targetKind (env : Env) (t : Nat) : Bool :=
  (env.node t).isInterface || (env.node t).isEnum || (env.node t).isUnion ||
    (env.node t).isInter || (env.node t).isAliasDecl

/-- `isTarget` of `generate.ts`; returns the answer together with the
possibly-grown visited set (the `hasJSDocTitle` branch mutates it). -/
def isTarget (env : Env) (t : Nat) (visited : List Nat) : Bool × List Nat :=
  if t ∈ visited then (false, visited)
  else
    let dOpt := (env.node t).decl
    let r := hasJSDocTitle env dOpt visited
    if r.1 then (false, r.2)
    else if declInNodeModules env dOpt then (false, r.2)
    else (targetKind env t, r.2)

/-- The recursion tail of the `forEachDescendant` callback: for a union
or intersection, recurse into each member type's backing declaration
(when its symbol and declaration exist); for an interface, recurse into
each of its properties' backing declarations; otherwise stop. -/
def dumpStepRec (env : Env) (rec : Option Nat → St → St) (t : Nat)
    (st2 : St) : St :=
  if (env.node t).isUnion || (env.node t).isInter then
    (env.node t).subTypes.foldl
      (fun s u =>
        match (env.node u).decl with
        | some dd => rec (some dd) s
        | none => s) st2
  else if (env.node t).isInterface then
    match (env.node t).decl with
    | some d => (env.node d).props.foldl (fun s p => rec p s) st2
    | none => st2
  else st2

/-- The body of the `forEachDescendant` callback in `dumpNestedTypes`,
parameterized by the recursive continuation `rec`.  Descendants that are
not type nodes are omitted from `descendants` (they fall through the
`!Node.isTypeNode` short-circuit without touching any state). -/
def dumpStep (env : Env) (rec : Option Nat → St → St) (st : St) (t : Nat) :
    St :=
  match jsTruthyS (env.node t).name with
  | none => st
  | some title =>
    if KEYWORDS_TO_SKIP.contains title then st
    else
      let r := isTarget env t st.visited
      if !r.1 then ⟨r.2, st.out⟩
      else
        dumpStepRec env rec t
          ⟨setAdd r.2 t,
           st.out ++ [(t, ⟨title, Schema.nested [⟨"title", title⟩]
                                    (env.node t).declText⟩)]⟩

/-- `dumpNestedTypes` of `generate.ts`, fuel-indexed (the fuel is proved
irrelevant once it exceeds `env.n`): bail out on a missing declaration;
if the declaration itself carries a JSDoc title, mark its type visited and
stop; otherwise run the descendant callback over every descendant type
node. -/
def dumpNestedTypes (env : Env) : Nat → Option Nat → St → St
  | _, none, st => st
  | 0, some _, st => st
  | fuel + 1, some d, st =>
    let r := hasJSDocTitle env (some d) st.visited
    if r.1 then ⟨r.2, st.out⟩
    else
      (env.node d).descendants.foldl
        (dumpStep env (dumpNestedTypes env fuel)) st

/-! ## The type-text linkifier -/

/-- The argument object of a `linkFormatter` call. -/
structure LinkReq where
  typeName : String
  jsDocTitle : Option String := none
  fullPath : Option String := none
deriving DecidableEq, Repr

/-- A caller-supplied link formatter: returns a link or `undefined`. -/
def LinkFormatter : Type := LinkReq → Option String

/-- Modelled from the spec: `toSingleLine` lives in the repository's
`util` module, which is not under `src/`; the spec says only that the
linkifier re-renders the type text "as a single line", with whitespace
"normalized to single-line form".  Modelled as collapsing every maximal
whitespace run to a single space. -/
def collapseWs : Bool → List Char → List Char
  | _, [] => []
  | prevWs, c :: cs =>
    if jsSpace c then
      if prevWs then collapseWs true cs else ' ' :: collapseWs true cs
    else c :: collapseWs false cs

/-- Modelled from the spec: see `collapseWs`. -/
def toSingleLine (s : String) : String :=
  String.mk (collapseWs false s.data)

/-- Modelled from the spec: `escape` also lives in the missing `util`
module and the spec does not describe it at all; modelled as the identity
on type text. -/
def escape (s : String) : String := s

/-- A token of the scratch parse of a type expression. -/
inductive Token
  | ident (s : String)
  | punct (s : String)
deriving DecidableEq, Repr

/-- The text of a token. -/
def Token.text : Token → String
  | .ident s => s
  | .punct s => s

/-- Modelled from the spec: the linkifier parses the type text as an
isolated scratch fragment (a throwaway source file in a dummy project) and
visits its identifier tokens; the external syntax parser is modelled as
splitting the text into maximal word-character runs (identifier tokens)
and single other characters. -/
def tokenizeChars (run : List Char) : List Char → List Token
  | [] => if run.isEmpty then [] else [Token.ident (String.mk run)]
  | c :: cs =>
    if wordChar c then tokenizeChars (run ++ [c]) cs
    else
      (if run.isEmpty then [] else [Token.ident (String.mk run)]) ++
        Token.punct (String.mk [c]) :: tokenizeChars [] cs

/-- The scratch parse performed by `getDisplayTypeWithLink` via
`dummyProject.createSourceFile('./dummy.ts', toSingleLine(escape(text)))`. -/
def scratchParse (s : String) : List Token :=
  tokenizeChars [] (toSingleLine (escape s)).data

/-- The `for (const parsedNestedType of parsedNestedTypeSet)` loop of
`getDisplayTypeWithLink`, for one identifier's text: the set iterates in
insertion order; a visited type whose symbol name is falsy or differs from
the identifier text is skipped; on a match, if the type has an entry in
the nested-type accumulator the formatter is called with the type name
only, otherwise with name, JSDoc title and definition path provided the
backing declaration carries a truthy title; when no link results, the
loop continues with the next visited type. -/
def linkForIdent (env : Env) (nestedTypeList : List Entry)
    (fmt : LinkFormatter) (txt : String) : List Nat → Option String
  | [] => none
  | t :: rest =>
    match jsTruthyS (env.node t).name with
    | none => linkForIdent env nestedTypeList fmt txt rest
    | some typeName =>
      if typeName ≠ txt then linkForIdent env nestedTypeList fmt txt rest
      else
        let link : Option String :=
          if (nestedTypeList.find? (fun e => e.title = typeName)).isSome then
            fmt ⟨typeName, none, none⟩
          else
            match (env.node t).decl with
            | some d =>
              match jsTruthyS (getDeclarationTags (env.node d).rawTags).title with
              | some title => fmt ⟨typeName, some title, (env.node d).filePath⟩
              | none => none
            | none => none
        match link with
        | some l => some l
        | none => linkForIdent env nestedTypeList fmt txt rest

/-- `getDisplayTypeWithLink` of `generate.ts`: single-line-normalize and
scratch-parse the text, then replace each identifier for which the loop
over the visited set produces a link by `[name](link)`; all other tokens
are rendered unchanged. -/
def getDisplayTypeWithLink (env : Env) (originTypeText : String)
    (nestedTypeList : List Entry) (visitedSet : List Nat)
    (fmt : LinkFormatter) : String :=
  String.join ((scratchParse originTypeText).map fun tok =>
    match tok with
    | .ident s =>
      match linkForIdent env nestedTypeList fmt s visitedSet with
      | some link => "[" ++ s ++ "](" ++ link ++ ")"
      | none => s
    | .punct s => s)

/-! ## Property and function schemas -/

/-- A value of the caller-supplied default type map: the `{type, tags}`
spread into the fallback property. -/
structure DefaultEntry where
  type : String
  tags : List TagType
deriving DecidableEq, Repr

/-- `getPropertySchema` of `generate.ts`.  Returns the built property (or
`none` for a skipped member) together with the updated resolver state:
only the description-tag branch runs `dumpNestedTypes` and the linkifier;
the fallback branch reads the default map and leaves the state alone. -/
def getPropertySchema (env : Env) (fuel : Nat) (sym : Sym)
    (defaultT : String → Option DefaultEntry) (strictComment : Bool)
    (st : St) (fmt : LinkFormatter) : Option PropertyType × St :=
  let name := sym.name
  let declaration := sym.decl
  let typeText := (env.node declaration).text
  match extractFromPropertyText typeText with
  | none => (none, st)
  | some extract =>
    let tags := getSymbolTags sym strictComment
    if (tags.find? (fun t =>
          t.name ≠ "" && TAG_NAMES_FOR_DESCRIPTION.contains t.name)).isSome then
      let st' := dumpNestedTypes env fuel (some declaration) st
      let typeWithLink :=
        getDisplayTypeWithLink env extract.type (st'.out.map Prod.snd)
          st'.visited fmt
      (some { name := name, type := typeWithLink,
              isOptional := extract.isOptional, tags := tags }, st')
    else
      match defaultT name with
      | some de =>
        (some { name := name, isOptional := extract.isOptional,
                type := de.type, tags := de.tags }, st)
      | none => (none, st)

/-- The body of the `forEach` loops of `generateSchema` that build a
`data` list: run `getPropertySchema`, push the result unless it is
`null`, and thread the resolver state. -/
def propsStep (env : Env) (fuel : Nat)
    (defaultT : String → Option DefaultEntry) (strictComment : Bool)
    (fmt : LinkFormatter) (acc : List PropertyType × St) (a : Sym) :
    List PropertyType × St :=
  let r := getPropertySchema env fuel a defaultT strictComment acc.2 fmt
  match r.1 with
  | some s => (acc.1 ++ [s], r.2)
  | none => (acc.1, r.2)

/-- The `forEach` loops of `generateSchema` that build a `data` list. -/
def buildPropsData (env : Env) (fuel : Nat)
    (defaultT : String → Option DefaultEntry) (strictComment : Bool)
    (fmt : LinkFormatter) (syms : List Sym)
    (acc : List PropertyType × St) : List PropertyType × St :=
  syms.foldl (propsStep env fuel defaultT strictComment fmt) acc

/-- `/import\([^)]+\)\./` at one start position: on success, the suffix
after the match. -/
def dropExact : List Char → List Char → Option (List Char)
  | [], l => some l
  | _ :: _, [] => none
  | p :: ps, c :: cs => if c = p then dropExact ps cs else none

/-- One attempt of the `import(...)` qualifier match. -/
def matchImportAt (l : List Char) : Option (List Char) :=
  match dropExact "import(".data l with
  | none => none
  | some r1 =>
    let body := r1.takeWhile (fun c => !(c = ')'))
    if body.isEmpty then none
    else
      match r1.dropWhile (fun c => !(c = ')')) with
      | ')' :: '.' :: rest => some rest
      | _ => none

/-- `.replace(/import\([^)]+\)\./g, '')`: delete every non-overlapping
match, scanning left to right (fuel-indexed by the text length, which
strictly bounds the number of scanning steps). -/
def stripImportAux : Nat → List Char → List Char
  | 0, l => l
  | _ + 1, [] => []
  | f + 1, c :: cs =>
    match matchImportAt (c :: cs) with
    | some rest => stripImportAux f rest
    | none => c :: stripImportAux f cs

/-- The `import(...)` qualifier stripping applied to parameter types. -/
def stripImportQualifiers (s : String) : String :=
  String.mk (stripImportAux s.data.length s.data)

/-- The result of `getFunctionSchema`, plus the threaded state. -/
structure FuncSchemaR where
  params : List PropertyType
  returns : String
  st : St
deriving DecidableEq, Repr

/-- `getFunctionSchema` of `generate.ts`: each parameter is deep-analyzed
(`dumpNestedTypes`), its tags resolved, its type text import-stripped and
linkified, and its default taken from the initializer or a
`default`/`defaultValue` tag; `returns` is the return type's raw text,
untouched. -/
def getFunctionSchema (env : Env) (fuel : Nat) (tn : Nat)
    (strictComment : Bool) (st0 : St) (fmt : LinkFormatter) : FuncSchemaR :=
  let r := (env.node tn).params.foldl
    (fun (acc : List PropertyType × St) para =>
      let st1 := dumpNestedTypes env fuel (some para.declId) acc.2
      let tags := getSymbolTags para.sym strictComment
      let typeWithLink :=
        getDisplayTypeWithLink env (stripImportQualifiers para.typeText)
          (st1.out.map Prod.snd) st1.visited fmt
      let initText :=
        match jsTruthyS para.initializerText with
        | some v => some v
        | none =>
          jsTruthyS ((tags.find? (fun t =>
            t.name = "default" || t.name = "defaultValue")).map TagType.value)
      (acc.1 ++ [{ tags := tags, name := para.name, type := typeWithLink,
                   isOptional := para.isOptional,
                   initializerText := initText }], st1))
    ([], st0)
  ⟨r.1, (env.node tn).returnText, r.2⟩

/-! ## The schema assembler -/

/-- Stable insertion into a list sorted by `le` (an element is placed
before the first list element it is `le`-related to, so elements that
compare equal keep their original relative order). -/
def insertSorted (le : α → α → Bool) (a : α) : List α → List α
  | [] => [a]
  | e :: es => if le a e then a :: e :: es else e :: insertSorted le a es

/-- A stable sort, modelling `Array.prototype.sort` with a comparator
(stable per ECMAScript 2019). -/
def sortStable (le : α → α → Bool) : List α → List α
  | [] => []
  | a :: l => insertSorted le a (sortStable le l)

/-- One JavaScript plain-object assignment `m[k] = v`, on maps modelled
by their lookup function. -/
def objSet (m : String → Option Schema) (k : String) (v : Schema) :
    String → Option Schema :=
  fun t => if t = k then some v else m t

/-- `GenerateConfig` as consumed by `generateSchema` and `generate`
(`sourceFilesPaths` and the external analysis `project` are handled in
`generate`'s model, see there). -/
structure Config where
  defaultTypeMap : Option (String → Option DefaultEntry) := none
  strictComment : Bool := false
  propertySorter : Option (PropertyType → PropertyType → Int) := none
  linkFormatter : Option LinkFormatter := none
  strictDeclarationOrder : Bool := false

/-- Modelled from the spec: the module-level `defaultTypeMap` of the
missing `default.ts` ("the default type-to-schema fallback table", a
configurable policy object whose contents the spec does not fix);
modelled as the empty table. -/
def defaultTypeMapModel : String → Option DefaultEntry := fun _ => none

/-- Modelled from the spec: the module-level `defaultLinkFormatter` of the
missing `default.ts` (the default link-rendering function, contents not
fixed by the spec); modelled as producing no link. -/
def defaultLinkFormatterModel : LinkFormatter := fun _ => none

/-- A source file as consumed by `generateSchema`: its top-level
interfaces, type aliases, and functions (node ids). -/
structure SourceFileM where
  interfaces : List Nat := []
  typeAliases : List Nat := []
  functions : List Nat := []
deriving DecidableEq, Repr

/-- Applying `config.propertySorter` to a freshly built schema:
`(schema as InterfaceSchema).data?.sort(propertySorter)` and
`(schema as FunctionSchema).params?.sort(propertySorter)`. -/
def sortSchema (f : PropertyType → PropertyType → Int) : Schema → Schema
  | .func tags params returns =>
    .func tags (sortStable (fun a b => f a b ≤ 0) params) returns
  | .intf tags data => .intf tags (sortStable (fun a b => f a b ≤ 0) data)
  | .nested tags data => .nested tags data

/-- The accumulating state of `generateSchema`'s declaration loop. -/
structure BuildSt where
  schemaList : List Entry
  schemaMap : String → Option Schema
  dSt : St

/-- The schema built for one titled declaration (the dispatch inside the
`forEach` of `generateSchema`): function shape when the declaration (or a
type alias's type node) is syntactically a function; interface with a
`notExtends` tag restricted to its own properties; otherwise all
properties visible through the type checker. -/
def buildSchemaForDecl (env : Env) (fuel : Nat)
    (defaultT : String → Option DefaultEntry) (strictComment : Bool)
    (fmt : LinkFormatter) (st : St) (d : Nat) (tags : List TagType) :
    Schema × St :=
  let typeNodeOpt : Option Nat :=
    if (env.node d).kindName = "FunctionDeclaration" then some d
    else if (env.node d).kindName = "TypeAliasDeclaration" then
      (env.node d).typeNodeId
    else none
  let nonFunc : Unit → Schema × St := fun _ =>
    if (env.node d).kindName = "InterfaceDeclaration" &&
        (tags.find? (fun t => t.name = "notExtends")).isSome then
      let r := buildPropsData env fuel defaultT strictComment fmt
        (env.node d).ownProps ([], st)
      (Schema.intf tags r.1, r.2)
    else
      let r := buildPropsData env fuel defaultT strictComment fmt
        (env.node d).checkerProps ([], st)
      (Schema.intf tags r.1, r.2)
  match typeNodeOpt with
  | some tn =>
    if (env.node tn).kindName = "FunctionDeclaration" ||
        (env.node tn).kindName = "FunctionType" then
      let r := getFunctionSchema env fuel tn strictComment st fmt
      (Schema.func tags r.params r.returns, r.st)
    else nonFunc ()
  | none => nonFunc ()

/-- One iteration of `generateSchema`'s declaration loop: skip a
declaration with a falsy title; otherwise build its schema, apply the
optional property sorter, push `{title, schema}` onto the ordered list and
write it into the map. -/
def processDecl (env : Env) (fuel : Nat)
    (defaultT : String → Option DefaultEntry) (strictComment : Bool)
    (sorter : Option (PropertyType → PropertyType → Int))
    (fmt : LinkFormatter) (b : BuildSt) (d : Nat) : BuildSt :=
  let dt := getDeclarationTags (env.node d).rawTags
  match jsTruthyS dt.title with
  | none => b
  | some title =>
    let r := buildSchemaForDecl env fuel defaultT strictComment fmt b.dSt d
      dt.tags
    let schema :=
      match sorter with
      | some f => sortSchema f r.1
      | none => r.1
    { schemaList := b.schemaList ++ [⟨title, schema⟩],
      schemaMap := objSet b.schemaMap title schema,
      dSt := r.2 }

/-- The declaration pass of `generateSchema`: concatenate interfaces,
type aliases and functions, sort by start line number (stable), and fold
the declaration loop from the empty state.  The fuel `env.n + 1` is
sufficient for every `dumpNestedTypes` run (claim C1). -/
def generateSchemaParts (env : Env) (sf : SourceFileM) (cfg : Config) :
    BuildSt :=
  let defaultT := cfg.defaultTypeMap.getD defaultTypeMapModel
  let fmt := cfg.linkFormatter.getD defaultLinkFormatterModel
  let fuel := env.n + 1
  let decls := sortStable
    (fun a b => (env.node a).startLine ≤ (env.node b).startLine)
    (sf.interfaces ++ sf.typeAliases ++ sf.functions)
  decls.foldl
    (processDecl env fuel defaultT cfg.strictComment cfg.propertySorter fmt)
    ⟨[], fun _ => none, ⟨[], []⟩⟩

/-- The two output shapes of `generateSchema`. -/
inductive GenOutput
  | mapOut (m : String → Option Schema)
  | listOut (l : List Entry)

/-- The map carried by a map-mode output. -/
def outMapFn : GenOutput → String → Option Schema
  | .mapOut m => m
  | .listOut _ => fun _ => none

/-- The list carried by a list-mode output. -/
def outListFn : GenOutput → List Entry
  | .listOut l => l
  | .mapOut _ => []

/-- `generateSchema` of `generate.ts`: run the declaration pass; when
nested types were accumulated, append them to the ordered list and spread
them over the map (the `reduce` writes them left to right, and the spread
makes every nested write later than every top-level write); return the
list or the map according to `strictDeclarationOrder`. -/
def generateSchema (env : Env) (sf : SourceFileM) (cfg : Config) :
    GenOutput :=
  let b := generateSchemaParts env sf cfg
  let nested := b.dSt.out.map Prod.snd
  let outList :=
    if nested.length > 0 then b.schemaList ++ nested else b.schemaList
  let outMap : String → Option Schema :=
    if nested.length > 0 then
      fun k =>
        match (nested.foldl (fun m e => objSet m e.title e.schema)
            (fun _ => none)) k with
        | some v => some v
        | none => b.schemaMap k
    else b.schemaMap
  if cfg.strictDeclarationOrder then .listOut outList else .mapOut outMap

/-- `project.getSourceFile(file)`: the analysis project as a path-keyed
collection of source files. -/
def findFile (proj : List (String × SourceFileM)) (file : String) :
    Option SourceFileM :=
  (proj.find? (fun p => p.1 = file)).map Prod.snd

/-- `generate` of `generate.ts`: `proj` models the analysis project after
the external `addSourceFilesAtPaths` loading step (an out-of-scope
collaborator); a missing entry file yields `none`, otherwise the schema of
`generateSchema`. -/
def generate (env : Env) (proj : List (String × SourceFileM))
    (file : String) (cfg : Config) : Option GenOutput :=
  match findFile proj file with
  | none => none
  | some sourceFile => some (generateSchema env sourceFile cfg)

/-- Last-write-wins lookup over a list of entries in write order: the
specification-side description of a JavaScript object built by assigning
`m[e.title] = e.schema` for each entry in order. -/
def lastEntryFor (l : List Entry) (k : String) : Option Schema :=
  ((l.filter (fun e => e.title = k)).getLast?).map Entry.schema

/-! ## Invariants used by the resolver proofs -/

/-- A well-formed visited set: duplicate-free with every id in range. -/
def VInv (env : Env) (l : List Nat) : Prop :=
  l.Nodup ∧ ∀ x ∈ l, x < env.n

/-- The resolver-state invariant on the visited set. -/
def StInv (env : Env) (st : St) : Prop :=
  VInv env st.visited

/-- The output invariant: the recorded type ids of the nested-type list
are duplicate-free and all already visited. -/
def OutInv (st : St) : Prop :=
  (st.out.map Prod.fst).Nodup ∧ ∀ x ∈ st.out.map Prod.fst, x ∈ st.visited

/-! ## Concrete instances used by witnesses and counterexamples -/

/-- The mutually referential type graph of claim C1: interface `A` has a
property of type `B` and interface `B` has a property of type `A`
(ids: 0 = `A`, 1 = `B`, 2 = `A`'s property declaration, 3 = `B`'s
property declaration). -/
def envAB : Env :=
  ⟨4, fun i =>
    match i with
    | 0 => { name := some "A", ty := 0, decl := some 0,
             isInterface := true, descendants := [1], props := [some 2],
             declText := "interface A { p: B }" }
    | 1 => { name := some "B", ty := 1, decl := some 1,
             isInterface := true, descendants := [0], props := [some 3],
             declText := "interface B { q: A }" }
    | 2 => { ty := 2, descendants := [1] }
    | _ => { ty := 3, descendants := [0] }⟩

/-- The C8 graph: node 0 is a scanned declaration referencing type `Foo`
(node 1) whose backing declaration (node 2) lives under a
`node_modules` path and carries a JSDoc `title` tag. -/
def envC8 : Env :=
  ⟨3, fun i =>
    match i with
    | 0 => { ty := 0, descendants := [1] }
    | 1 => { name := some "Foo", ty := 1, decl := some 2 }
    | _ => { ty := 1, rawTags := [⟨"title", "MyFoo"⟩],
             filePath := some "/x/node_modules/lib/a.d.ts" }⟩

/-- A link formatter that always produces a link. -/
def fmtAlways : LinkFormatter := fun _ => some "link"

/-- Like `envC8`, but the external declaration carries no title tag: the
interface type `Foo` backed by an untitled `node_modules` declaration is
rejected by the path check and never visited. -/
def envC8u : Env :=
  ⟨3, fun i =>
    match i with
    | 0 => { ty := 0, descendants := [1] }
    | 1 => { name := some "Foo", ty := 1, decl := some 2,
             isInterface := true }
    | _ => { ty := 1, filePath := some "/x/node_modules/lib/a.d.ts" }⟩

/-- Two titled declarations sharing the title `Dup` (C3). -/
def envW3 : Env :=
  ⟨2, fun i =>
    match i with
    | 0 => { rawTags := [⟨"title", "Dup"⟩, ⟨"x", "first"⟩],
             startLine := 1, kindName := "InterfaceDeclaration" }
    | _ => { rawTags := [⟨"title", "Dup"⟩, ⟨"x", "second"⟩],
             startLine := 2, kindName := "InterfaceDeclaration" }⟩

/-- The C3 source file. -/
def sfW3 : SourceFileM := { interfaces := [0, 1] }

/-- The C3 configuration (default map mode). -/
def cfgW3 : Config := {}

/-- Three titled declarations at start lines 5, 1 and 3 (C4). -/
def envW4 : Env :=
  ⟨3, fun i =>
    match i with
    | 0 => { rawTags := [⟨"title", "L5"⟩], startLine := 5,
             kindName := "InterfaceDeclaration" }
    | 1 => { rawTags := [⟨"title", "L1"⟩], startLine := 1,
             kindName := "InterfaceDeclaration" }
    | _ => { rawTags := [⟨"title", "L3"⟩], startLine := 3,
             kindName := "InterfaceDeclaration" }⟩

/-- The C4 source file. -/
def sfW4 : SourceFileM := { interfaces := [0, 1, 2] }

/-- The C4 configuration (strict declaration order). -/
def cfgW4 : Config := { strictDeclarationOrder := true }

/-- A shared trivial link formatter for concrete instances. -/
def noLink : LinkFormatter := fun _ => none

/-- A symbol with one explicit `zh` tag and a plain description. -/
def symW6 : Sym :=
  ⟨"action", [⟨"zh", "existing"⟩], [⟨"text", "plain description"⟩], 0⟩

/-- Nodes for the C7 witness: a member whose text cannot be parsed next
to one that can. -/
def envW7 : Env :=
  ⟨2, fun i =>
    match i with
    | 0 => { text := "()" }
    | _ => { text := "style: string;" }⟩

/-- The C7 bad member symbol. -/
def symBad : Sym := ⟨"bad", [], [], 0⟩

/-- The C7 good member symbol. -/
def symGood : Sym := ⟨"style", [], [], 1⟩

/-- The C7 default map (hits `style`). -/
def dtW7 : String → Option DefaultEntry := fun n =>
  if n = "style" then some ⟨"string", [⟨"zh", "style desc"⟩]⟩ else none

/-- Nodes for the C5 witness. -/
def envW5 : Env :=
  ⟨2, fun i =>
    match i with
    | 0 => { text := "style: string;" }
    | _ => { text := "foo: number;" }⟩

/-- The C5 documented-by-convention property symbol. -/
def symStyle : Sym := ⟨"style", [], [], 0⟩

/-- The C5 undocumented property symbol with no default entry. -/
def symFoo : Sym := ⟨"foo", [], [], 1⟩

/-- The C5 default map (hits `style` only). -/
def dtW5 : String → Option DefaultEntry := fun n =>
  if n = "style" then some ⟨"string", [⟨"zh", "style desc"⟩]⟩ else none

/-- The C9 environment (no nodes needed). -/
def envW9 : Env := ⟨0, fun _ => {}⟩

/-- The C9 source file. -/
def sfW9 : SourceFileM := {}

/-- The C9 configuration. -/
def cfgW9 : Config := {}

/-! ## Generic list helpers -/

theorem getLastQ_cons_or (a : α) (l : List α) :
    (a :: l).getLast? = (l.getLast?).or (some a) := by
  cases l with
  | nil => rfl
  | cons b bs =>
    rw [List.getLast?_cons_cons]
    cases h : (b :: bs).getLast? with
    | some x => rfl
    | none => exact absurd (List.getLast?_eq_none_iff.mp h) (by simp)

theorem getLastQ_append_or (l1 l2 : List α) :
    (l1 ++ l2).getLast? = (l2.getLast?).or l1.getLast? := by
  induction l1 with
  | nil =>
    cases h : l2.getLast? with
    | some x => simp [Option.or, h]
    | none => simp [List.getLast?_eq_none_iff.mp h]
  | cons a as ih =>
    rw [List.cons_append, getLastQ_cons_or, ih, getLastQ_cons_or,
      Option.or_assoc]

/-! ## C2: the effective title of a declaration -/

theorem getDeclarationTags_foldl_title (rawTags : List TagType)
    (acc : Option String × List TagType) :
    (rawTags.foldl
      (fun (acc : Option String × List TagType) tag =>
        (if tag.name = "title" then some tag.value else acc.1,
         acc.2 ++ [tag])) acc).1 =
      (((rawTags.filter (fun t => t.name = "title")).getLast?).map
        TagType.value).or acc.1 := by
  induction rawTags generalizing acc with
  | nil => rfl
  | cons t ts ih =>
    rw [List.foldl_cons, ih]
    by_cases ht : t.name = "title"
    · rw [List.filter_cons_of_pos (by simp [ht]), getLastQ_cons_or,
        if_pos ht]
      cases (List.filter (fun t => decide (t.name = "title")) ts).getLast?
        with
      | some x => rfl
      | none => rfl
    · rw [List.filter_cons_of_neg (by simp [ht]), if_neg ht]

theorem getDeclarationTags_foldl_tags (rawTags : List TagType)
    (acc : Option String × List TagType) :
    (rawTags.foldl
      (fun (acc : Option String × List TagType) tag =>
        (if tag.name = "title" then some tag.value else acc.1,
         acc.2 ++ [tag])) acc).2 = acc.2 ++ rawTags := by
  induction rawTags generalizing acc with
  | nil => simp
  | cons t ts ih => rw [List.foldl_cons, ih]; simp

/-- C2 (corrected): when the first documentation block contains several
tags named `title`, `getDeclarationTags` surfaces the value of the LAST
such tag as the declaration's effective title (the loop reassigns `title`
on every `title` tag), and every tag is kept in order. -/
theorem getDeclarationTags_last_title_wins (rawTags : List TagType) :
    (getDeclarationTags rawTags).title =
      ((rawTags.filter (fun t => t.name = "title")).getLast?).map
        TagType.value ∧
    (getDeclarationTags rawTags).tags = rawTags := by
  constructor
  · show (rawTags.foldl _ (none, [])).1 = _
    rw [getDeclarationTags_foldl_title]
    cases ((rawTags.filter (fun t => t.name = "title")).getLast?).map
      TagType.value with
    | some v => rfl
    | none => rfl
  · show (rawTags.foldl _ (none, [])).2 = _
    rw [getDeclarationTags_foldl_tags]
    simp

/-- C2 counterexample: with two `title` tags valued `A` then `B`, the
surfaced title is `B`, not the first occurrence `A` as the claim states. -/
theorem getDeclarationTags_first_wins_false :
    (getDeclarationTags [⟨"title", "A"⟩, ⟨"title", "B"⟩]).title ≠
        some "A" ∧
      (getDeclarationTags [⟨"title", "A"⟩, ⟨"title", "B"⟩]).title =
        some "B" := by
  constructor
  · decide
  · decide

/-! ## C6: promotion of plain description text to synthetic tags -/

/-- C6: when parsing tags of a symbol with `strict` false, a non-empty
plain (`text`-kind) leading description part is appended as a synthetic
tag for each of the two description-tag names (`zh`, `en`) not already
present among the symbol's tags; with `strict` true, or without such a
description part, the tags are exactly the symbol's JSDoc tags. -/
theorem getSymbolTags_description_promotion (sym : Sym) :
    getSymbolTags sym true = sym.jsDocTags ∧
    ((∀ p ∈ sym.docComment.head?, ¬(p.kind = "text" ∧ p.text ≠ "")) →
      getSymbolTags sym false = sym.jsDocTags) ∧
    (∀ p ∈ sym.docComment.head?, p.kind = "text" → p.text ≠ "" →
      getSymbolTags sym false =
        sym.jsDocTags ++
          (TAG_NAMES_FOR_DESCRIPTION.filter (fun n =>
            (sym.jsDocTags.find? (fun t => t.name = n)).isNone)).map
            (fun n => ⟨n, p.text⟩)) := by
  refine ⟨rfl, ?_, ?_⟩
  · intro h
    cases hh : sym.docComment.head? with
    | none => simp [getSymbolTags, hh]
    | some p =>
      have hnp := h p (by rw [Option.mem_def, hh])
      simp [getSymbolTags, hh, hnp]
  · intro p hp hk ht
    rw [Option.mem_def] at hp
    have hcond : (p.kind = "text" ∧ p.text ≠ "") := ⟨hk, ht⟩
    simp only [getSymbolTags, Bool.false_eq_true, if_false, hp]
    rw [if_pos hcond]
    simp only [TAG_NAMES_FOR_DESCRIPTION, List.foldl_cons, List.foldl_nil,
      List.filter_cons, List.filter_nil]
    cases hfz : sym.jsDocTags.find? (fun t => t.name = "zh") with
    | some xz =>
      cases hfe : sym.jsDocTags.find? (fun t => t.name = "en") with
      | some xe => simp [hfz, hfe]
      | none => simp [hfz, hfe]
    | none =>
      have hfind : ((sym.jsDocTags ++ [TagType.mk "zh" p.text]).find?
          (fun t => t.name = "en")) = sym.jsDocTags.find?
          (fun t => t.name = "en") := by
        rw [List.find?_append]
        simp [List.find?]
      cases hfe : sym.jsDocTags.find? (fun t => t.name = "en") with
      | some xe => simp [hfz, hfind, hfe]
      | none => simp [hfz, hfind, hfe]

/-- C6 witness: on `symW6`, non-strict parsing appends only the missing
`en` synthetic tag, and strict parsing appends nothing. -/
theorem getSymbolTags_description_promotion_witness :
    getSymbolTags symW6 false =
      [⟨"zh", "existing"⟩, ⟨"en", "plain description"⟩] ∧
    getSymbolTags symW6 true = [⟨"zh", "existing"⟩] := by
  have h := getSymbolTags_description_promotion symW6
  exact ⟨(h.2.2 ⟨"text", "plain description"⟩ rfl rfl (by decide)).trans
    (by decide), h.1.trans (by decide)⟩

/-! ## C7: unparseable members are skipped, not fatal -/

theorem buildPropsData_cons (env : Env) (fuel : Nat)
    (defaultT : String → Option DefaultEntry) (strictComment : Bool)
    (fmt : LinkFormatter) (a : Sym) (syms : List Sym)
    (acc : List PropertyType × St) :
    buildPropsData env fuel defaultT strictComment fmt (a :: syms) acc =
      buildPropsData env fuel defaultT strictComment fmt syms
        (propsStep env fuel defaultT strictComment fmt acc a) := rfl

theorem propsStep_of_none (env : Env) (fuel : Nat) (sym : Sym)
    (defaultT : String → Option DefaultEntry) (strictComment : Bool)
    (fmt : LinkFormatter) (acc : List PropertyType × St)
    (h : getPropertySchema env fuel sym defaultT strictComment acc.2 fmt =
      (none, acc.2)) :
    propsStep env fuel defaultT strictComment fmt acc sym = acc := by
  simp only [propsStep, h]

/-- C7: when `extractFromPropertyText` rejects a member's raw declaration
text, `getPropertySchema` signals `none` with the resolver state
untouched, and in the enclosing property loop that single member
contributes nothing while every other member is processed exactly as if
the bad member were absent. -/
theorem unparseable_member_skipped (env : Env) (fuel : Nat) (sym : Sym)
    (defaultT : String → Option DefaultEntry) (strictComment : Bool)
    (fmt : LinkFormatter)
    (hex : extractFromPropertyText ((env.node sym.decl).text) = none) :
    (∀ st, getPropertySchema env fuel sym defaultT strictComment st fmt =
      (none, st)) ∧
    (∀ pre post acc,
      buildPropsData env fuel defaultT strictComment fmt
          (pre ++ sym :: post) acc =
        buildPropsData env fuel defaultT strictComment fmt (pre ++ post)
          acc) := by
  have h1 : ∀ st, getPropertySchema env fuel sym defaultT strictComment st
      fmt = (none, st) := by
    intro st
    simp only [getPropertySchema, hex]
  refine ⟨h1, ?_⟩
  intro pre post acc
  induction pre generalizing acc with
  | nil =>
    rw [List.nil_append, List.nil_append, buildPropsData_cons,
      propsStep_of_none env fuel sym defaultT strictComment fmt acc
        (h1 acc.2)]
  | cons a pre ih =>
    rw [List.cons_append, List.cons_append, buildPropsData_cons,
      buildPropsData_cons, ih]

/-- C7 witness: `"()"` does not match the member pattern; the member is
skipped with the state unchanged, and the sibling loop result is the same
as without it. -/
theorem unparseable_member_skipped_witness :
    extractFromPropertyText ((envW7.node symBad.decl).text) = none ∧
    getPropertySchema envW7 3 symBad dtW7 false ⟨[], []⟩ noLink =
      (none, ⟨[], []⟩) ∧
    buildPropsData envW7 3 dtW7 false noLink ([symGood] ++ symBad :: [])
        ([], ⟨[], []⟩) =
      buildPropsData envW7 3 dtW7 false noLink ([symGood] ++ [])
        ([], ⟨[], []⟩) := by
  have h := unparseable_member_skipped envW7 3 symBad dtW7 false noLink
    (by decide)
  exact ⟨by decide, h.1 ⟨[], []⟩, h.2 [symGood] [] ([], ⟨[], []⟩)⟩

/-! ## C5: the default-type-map fallback -/

/-- C5: an emitted property with no description tag (`zh`/`en`) is built
from the default map alone: the state (nested list, visited set) is
untouched; a map hit yields exactly the entry's type and tags (plus the
extracted optionality); a map miss yields no property, and in the
enclosing loop such a member is absent from the output entirely, while a
hit appends exactly the fallback property. -/
theorem getPropertySchema_default_fallback (env : Env) (fuel : Nat)
    (sym : Sym) (defaultT : String → Option DefaultEntry)
    (strictComment : Bool) (fmt : LinkFormatter) (e : ExtractType)
    (hex : extractFromPropertyText ((env.node sym.decl).text) = some e)
    (hnd : (getSymbolTags sym strictComment).find? (fun t =>
      t.name ≠ "" && TAG_NAMES_FOR_DESCRIPTION.contains t.name) = none) :
    (∀ st, getPropertySchema env fuel sym defaultT strictComment st fmt =
      ((defaultT sym.name).map (fun de =>
        { name := sym.name, isOptional := e.isOptional, type := de.type,
          tags := de.tags }), st)) ∧
    (defaultT sym.name = none → ∀ pre post acc,
      buildPropsData env fuel defaultT strictComment fmt
          (pre ++ sym :: post) acc =
        buildPropsData env fuel defaultT strictComment fmt (pre ++ post)
          acc) ∧
    (∀ de, defaultT sym.name = some de → ∀ rest acc,
      buildPropsData env fuel defaultT strictComment fmt (sym :: rest)
          acc =
        buildPropsData env fuel defaultT strictComment fmt rest
          (acc.1 ++ [{ name := sym.name, isOptional := e.isOptional,
                       type := de.type, tags := de.tags }], acc.2)) := by
  have h1 : ∀ st, getPropertySchema env fuel sym defaultT strictComment st
      fmt = ((defaultT sym.name).map (fun de =>
        { name := sym.name, isOptional := e.isOptional, type := de.type,
          tags := de.tags }), st) := by
    intro st
    simp only [getPropertySchema, hex, hnd, Option.isSome_none,
      Bool.false_eq_true, if_false]
    cases hd : defaultT sym.name with
    | some de => rfl
    | none => rfl
  refine ⟨h1, ?_, ?_⟩
  · intro hmiss pre post acc
    induction pre generalizing acc with
    | nil =>
      have harg : propsStep env fuel defaultT strictComment fmt acc sym =
          acc := by
        apply propsStep_of_none
        rw [h1, hmiss]
        rfl
      rw [List.nil_append, List.nil_append, buildPropsData_cons, harg]
    | cons a pre ih =>
      rw [List.cons_append, List.cons_append, buildPropsData_cons,
        buildPropsData_cons, ih]
  · intro de hhit rest acc
    have harg : propsStep env fuel defaultT strictComment fmt acc sym =
        (acc.1 ++ [{ name := sym.name, isOptional := e.isOptional,
                     type := de.type, tags := de.tags }], acc.2) := by
      simp only [propsStep, h1, hhit]
      rfl
    rw [buildPropsData_cons, harg]

/-- C5 witness: undocumented `style` appears with exactly the default
entry's type and tags and no state change; undocumented `foo` is absent. -/
theorem getPropertySchema_default_fallback_witness :
    getPropertySchema envW5 3 symStyle dtW5 false ⟨[], []⟩ noLink =
      (some { name := "style", isOptional := false, type := "string",
              tags := [⟨"zh", "style desc"⟩] }, ⟨[], []⟩) ∧
    getPropertySchema envW5 3 symFoo dtW5 false ⟨[], []⟩ noLink =
      (none, ⟨[], []⟩) := by
  have h1 := getPropertySchema_default_fallback envW5 3 symStyle dtW5
    false noLink ⟨"style", " string", false⟩ (by decide) (by decide)
  have h2 := getPropertySchema_default_fallback envW5 3 symFoo dtW5
    false noLink ⟨"foo", " number", false⟩ (by decide) (by decide)
  exact ⟨(h1.1 ⟨[], []⟩).trans (by decide), (h2.1 ⟨[], []⟩).trans
    (by decide)⟩

/-! ## C9: absence signalling of `generate` -/

/-- C9: an entry file missing from the project makes the whole call
return `none` rather than fail; a present entry file always yields the
schema produced by `generateSchema` (which is total: a map or a list,
never absent). -/
theorem generate_absence_signal (env : Env)
    (proj : List (String × SourceFileM)) (file : String) (cfg : Config) :
    (findFile proj file = none → generate env proj file cfg = none) ∧
    (∀ sf, findFile proj file = some sf →
      generate env proj file cfg = some (generateSchema env sf cfg)) := by
  constructor
  · intro h
    simp [generate, h]
  · intro sf h
    simp [generate, h]

/-- C9 witness: an empty project yields `none` for any file; a project
containing the entry file yields its schema. -/
theorem generate_absence_signal_witness :
    generate envW9 [] "a.ts" cfgW9 = none ∧
    generate envW9 [("a.ts", sfW9)] "a.ts" cfgW9 =
      some (generateSchema envW9 sfW9 cfgW9) :=
  ⟨(generate_absence_signal envW9 [] "a.ts" cfgW9).1 rfl,
   (generate_absence_signal envW9 [("a.ts", sfW9)] "a.ts" cfgW9).2 sfW9
     rfl⟩

/-! ## C10: the return type is raw checker text -/

/-- C10: a function-shaped declaration's `returns` field is the return
type's raw text exactly as read from the type checker: it is produced
without the import-qualifier stripping, single-line normalization and
link substitution applied to parameter types, and is therefore
independent of the fuel, strictness, resolver state and link formatter. -/
theorem function_returns_raw_text (env : Env) (fuel : Nat) (tn : Nat)
    (strictComment : Bool) (st : St) (fmt : LinkFormatter) :
    (getFunctionSchema env fuel tn strictComment st fmt).returns =
      (env.node tn).returnText ∧
    ∀ fuel2 strictComment2 st2 fmt2,
      (getFunctionSchema env fuel2 tn strictComment2 st2 fmt2).returns =
        (getFunctionSchema env fuel tn strictComment st fmt).returns :=
  ⟨rfl, fun _ _ _ _ => rfl⟩

/-! ## C1: the nested-type resolver terminates and deduplicates

The proof follows the visited-set argument: every recursive call of
`dumpNestedTypes` through `dumpStep` happens strictly after a type not
previously in the visited set has been added to it, the visited set only
grows and stays duplicate-free within the node range, so the recursion
depth is bounded by the number of nodes and any fuel beyond `env.n`
computes the same result; an entry is pushed to the nested-type list only
in the same guarded step, so each distinct type contributes at most one
entry. -/

theorem setAdd_sub (l : List Nat) (x : Nat) : l ⊆ setAdd l x := by
  unfold setAdd
  by_cases h : x ∈ l
  · rw [if_pos h]
    exact List.Subset.refl l
  · rw [if_neg h]
    exact List.subset_append_left l [x]

theorem mem_setAdd_iff (l : List Nat) (x y : Nat) :
    y ∈ setAdd l x ↔ y ∈ l ∨ y = x := by
  unfold setAdd
  by_cases h : x ∈ l
  · rw [if_pos h]
    constructor
    · exact Or.inl
    · rintro (hy | rfl)
      · exact hy
      · exact h
  · rw [if_neg h]
    simp

theorem setAdd_nodup (l : List Nat) (x : Nat) (h : l.Nodup) :
    (setAdd l x).Nodup := by
  unfold setAdd
  by_cases hx : x ∈ l
  · rw [if_pos hx]; exact h
  · rw [if_neg hx]
    exact List.Nodup.append h (List.nodup_singleton x)
      (fun a ha hax => hx ((List.mem_singleton.mp hax) ▸ ha))

theorem setAdd_vinv (env : Env) (l : List Nat) (x : Nat)
    (h : VInv env l) (hx : x < env.n) : VInv env (setAdd l x) := by
  refine ⟨setAdd_nodup l x h.1, fun y hy => ?_⟩
  rcases (mem_setAdd_iff l x y).mp hy with hy | rfl
  · exact h.2 y hy
  · exact hx

theorem setAdd_length_of_not_mem (l : List Nat) (x : Nat) (h : x ∉ l) :
    (setAdd l x).length = l.length + 1 := by
  unfold setAdd
  rw [if_neg h]
  simp

theorem not_mem_setAdd (l : List Nat) (x y : Nat) (hxy : y ≠ x)
    (hl : y ∉ l) : y ∉ setAdd l x := by
  rw [mem_setAdd_iff]
  rintro (h | h)
  · exact hl h
  · exact hxy h

theorem nodup_subset_length_le (l1 l2 : List Nat) (h1 : l1.Nodup)
    (hsub : l1 ⊆ l2) : l1.length ≤ l2.length := by
  calc l1.length = l1.toFinset.card := (List.toFinset_card_of_nodup h1).symm
    _ ≤ l2.toFinset.card := Finset.card_le_card (fun x hx =>
        List.mem_toFinset.mpr (hsub (List.mem_toFinset.mp hx)))
    _ ≤ l2.length := l2.toFinset_card_le

theorem vinv_full_mem (env : Env) (l : List Nat) (h : VInv env l)
    (hlen : env.n ≤ l.length) (t : Nat) (ht : t < env.n) : t ∈ l := by
  have hsub : l.toFinset ⊆ Finset.range env.n := fun x hx =>
    Finset.mem_range.mpr (h.2 x (List.mem_toFinset.mp hx))
  have hcard : (Finset.range env.n).card ≤ l.toFinset.card := by
    rw [Finset.card_range, List.toFinset_card_of_nodup h.1]
    exact hlen
  have heq := Finset.eq_of_subset_of_card_le hsub hcard
  rw [← List.mem_toFinset, heq]
  exact Finset.mem_range.mpr ht

/-! Extraction of the executable well-formedness predicate. -/

theorem envWFb_spec (env : Env) (h : envWFb env = true) (i : Nat)
    (hi : i < env.n) :
    (env.node i).ty < env.n ∧
    (∀ d, (env.node i).decl = some d → d < env.n) ∧
    (∀ t ∈ (env.node i).descendants, t < env.n) ∧
    (∀ u ∈ (env.node i).subTypes, u < env.n) ∧
    (∀ p, some p ∈ (env.node i).props → p < env.n) := by
  have hall := List.all_eq_true.mp h i (List.mem_range.mpr hi)
  simp only [Bool.and_eq_true, decide_eq_true_eq, List.all_eq_true]
    at hall
  obtain ⟨⟨⟨⟨h1, h2⟩, h3⟩, h4⟩, h5⟩ := hall
  refine ⟨h1, fun d hd => ?_, fun t ht => ?_, fun u hu => ?_,
    fun p hp => ?_⟩
  · rw [hd] at h2
    exact of_decide_eq_true h2
  · exact h3 t ht
  · exact h4 u hu
  · have := h5 (some p) hp
    exact of_decide_eq_true this

/-! Characterizations of the two set-mutating guards. -/

theorem hasJSDocTitle_snd_cases (env : Env) (dOpt : Option Nat)
    (v : List Nat) :
    (hasJSDocTitle env dOpt v).2 = v ∨
    ∃ d, dOpt = some d ∧
      (hasJSDocTitle env dOpt v).2 = setAdd v (env.node d).ty := by
  cases dOpt with
  | none => exact Or.inl rfl
  | some d =>
    simp only [hasJSDocTitle]
    cases jsTruthyS (getDeclarationTags (env.node d).rawTags).title with
    | some t => exact Or.inr ⟨d, rfl, rfl⟩
    | none => exact Or.inl rfl

theorem hasJSDocTitle_snd_sub (env : Env) (dOpt : Option Nat)
    (v : List Nat) : v ⊆ (hasJSDocTitle env dOpt v).2 := by
  rcases hasJSDocTitle_snd_cases env dOpt v with h | ⟨d, _, h⟩
  · rw [h]
    exact List.Subset.refl v
  · rw [h]
    exact setAdd_sub v (env.node d).ty

theorem hasJSDocTitle_false_snd (env : Env) (dOpt : Option Nat)
    (v : List Nat) (h : (hasJSDocTitle env dOpt v).1 = false) :
    (hasJSDocTitle env dOpt v).2 = v := by
  cases dOpt with
  | none => rfl
  | some d =>
    simp only [hasJSDocTitle] at h ⊢
    cases hjt : jsTruthyS (getDeclarationTags (env.node d).rawTags).title
      with
    | some t =>
      rw [hjt] at h
      simp at h
    | none => rfl

theorem hasJSDocTitle_vinv (env : Env) (hwf : envWFb env = true)
    (dOpt : Option Nat) (v : List Nat)
    (hd : ∀ x, dOpt = some x → x < env.n) (hv : VInv env v) :
    VInv env (hasJSDocTitle env dOpt v).2 := by
  rcases hasJSDocTitle_snd_cases env dOpt v with h | ⟨d, hdq, h⟩
  · rw [h]; exact hv
  · rw [h]
    exact setAdd_vinv env v _ hv
      (envWFb_spec env hwf d (hd d hdq)).1

theorem isTarget_of_mem (env : Env) (t : Nat) (v : List Nat)
    (h : t ∈ v) : isTarget env t v = (false, v) := by
  unfold isTarget
  rw [if_pos h]

theorem isTarget_snd_eq (env : Env) (t : Nat) (v : List Nat)
    (hm : t ∉ v) :
    (isTarget env t v).2 = (hasJSDocTitle env (env.node t).decl v).2 := by
  unfold isTarget
  rw [if_neg hm]
  by_cases h1 : (hasJSDocTitle env (env.node t).decl v).1 = true
  · simp [h1]
  · by_cases h2 : declInNodeModules env (env.node t).decl = true
    · simp [h1, h2]
    · simp [h1, h2]

theorem isTarget_snd_sub (env : Env) (t : Nat) (v : List Nat) :
    v ⊆ (isTarget env t v).2 := by
  by_cases hm : t ∈ v
  · rw [isTarget_of_mem env t v hm]
    exact List.Subset.refl v
  · rw [isTarget_snd_eq env t v hm]
    exact hasJSDocTitle_snd_sub env (env.node t).decl v

theorem isTarget_snd_cases (env : Env) (t : Nat) (v : List Nat) :
    (isTarget env t v).2 = v ∨
    ∃ d, (env.node t).decl = some d ∧
      (isTarget env t v).2 = setAdd v (env.node d).ty := by
  by_cases hm : t ∈ v
  · rw [isTarget_of_mem env t v hm]
    exact Or.inl rfl
  · rw [isTarget_snd_eq env t v hm]
    rcases hasJSDocTitle_snd_cases env (env.node t).decl v with h |
      ⟨d, hdq, h⟩
    · exact Or.inl h
    · exact Or.inr ⟨d, hdq, h⟩

theorem isTarget_vinv (env : Env) (hwf : envWFb env = true) (t : Nat)
    (ht : t < env.n) (v : List Nat) (hv : VInv env v) :
    VInv env (isTarget env t v).2 := by
  rcases isTarget_snd_cases env t v with h | ⟨d, hdq, h⟩
  · rw [h]; exact hv
  · rw [h]
    have hdlt : d < env.n := (envWFb_spec env hwf t ht).2.1 d hdq
    exact setAdd_vinv env v _ hv (envWFb_spec env hwf d hdlt).1

theorem isTarget_true_facts (env : Env) (t : Nat) (v : List Nat)
    (h : (isTarget env t v).1 = true) :
    (isTarget env t v).2 = v ∧ t ∉ v := by
  by_cases hm : t ∈ v
  · rw [isTarget_of_mem env t v hm] at h
    exact absurd h (by simp)
  · refine ⟨?_, hm⟩
    rw [isTarget_snd_eq env t v hm]
    apply hasJSDocTitle_false_snd
    by_cases h1 : (hasJSDocTitle env (env.node t).decl v).1 = true
    · unfold isTarget at h
      rw [if_neg hm] at h
      simp [h1] at h
    · simp [h1]

/-! Generic fold lemmas for the threaded state. -/

theorem foldl_st_mono {α : Type} (f : St → α → St) (l : List α) (st : St)
    (hf : ∀ s a, a ∈ l → s.visited ⊆ (f s a).visited) :
    st.visited ⊆ (l.foldl f st).visited := by
  induction l generalizing st with
  | nil => exact List.Subset.refl _
  | cons a as ih =>
    rw [List.foldl_cons]
    exact List.Subset.trans (hf st a (List.mem_cons_self a as))
      (ih (f st a) (fun s b hb => hf s b (List.mem_cons_of_mem a hb)))

theorem foldl_preserve {β α : Type} (P : β → Prop) (f : β → α → β)
    (l : List α) (st : β) (hP : P st)
    (hf : ∀ s a, a ∈ l → P s → P (f s a)) : P (l.foldl f st) := by
  induction l generalizing st with
  | nil => exact hP
  | cons a as ih =>
    rw [List.foldl_cons]
    exact ih (f st a) (hf st a (List.mem_cons_self a as) hP)
      (fun s b hb hs => hf s b (List.mem_cons_of_mem a hb) hs)

theorem foldl_congr_pres {α : Type} (P : St → Prop) (f g : St → α → St)
    (l : List α) (st : St) (hP : P st)
    (hfg : ∀ s a, a ∈ l → P s → f s a = g s a)
    (hPf : ∀ s a, a ∈ l → P s → P (f s a)) :
    l.foldl f st = l.foldl g st := by
  induction l generalizing st with
  | nil => rfl
  | cons a as ih =>
    rw [List.foldl_cons, List.foldl_cons,
      ← hfg st a (List.mem_cons_self a as) hP]
    exact ih (f st a) (hPf st a (List.mem_cons_self a as) hP)
      (fun s b hb hs => hfg s b (List.mem_cons_of_mem a hb) hs)
      (fun s b hb hs => hPf s b (List.mem_cons_of_mem a hb) hs)

/-! Step-shape equations for `dumpStep` and `dumpNestedTypes`. -/

theorem dumpStep_of_name_none (env : Env) (rec : Option Nat → St → St)
    (st : St) (t : Nat) (hn : jsTruthyS (env.node t).name = none) :
    dumpStep env rec st t = st := by
  simp only [dumpStep, hn]

theorem dumpStep_of_skip (env : Env) (rec : Option Nat → St → St)
    (st : St) (t : Nat) (title : String)
    (hn : jsTruthyS (env.node t).name = some title)
    (hk : KEYWORDS_TO_SKIP.contains title = true) :
    dumpStep env rec st t = st := by
  simp only [dumpStep, hn, hk, if_true]

theorem dumpStep_of_not_target (env : Env) (rec : Option Nat → St → St)
    (st : St) (t : Nat) (title : String)
    (hn : jsTruthyS (env.node t).name = some title)
    (hk : KEYWORDS_TO_SKIP.contains title = false)
    (hok : (isTarget env t st.visited).1 = false) :
    dumpStep env rec st t = ⟨(isTarget env t st.visited).2, st.out⟩ := by
  simp only [dumpStep, hn, hk, hok, Bool.false_eq_true, if_false,
    Bool.not_false, if_true]

theorem dumpStep_of_target (env : Env) (rec : Option Nat → St → St)
    (st : St) (t : Nat) (title : String)
    (hn : jsTruthyS (env.node t).name = some title)
    (hk : KEYWORDS_TO_SKIP.contains title = false)
    (hok : (isTarget env t st.visited).1 = true) :
    dumpStep env rec st t =
      dumpStepRec env rec t
        ⟨setAdd (isTarget env t st.visited).2 t,
         st.out ++ [(t, ⟨title, Schema.nested [⟨"title", title⟩]
                                  (env.node t).declText⟩)]⟩ := by
  simp only [dumpStep, hn, hk, hok, Bool.false_eq_true, if_false,
    Bool.not_true]

theorem dumpStep_of_mem (env : Env) (rec : Option Nat → St → St)
    (st : St) (t : Nat) (hm : t ∈ st.visited) :
    dumpStep env rec st t = st := by
  cases hn : jsTruthyS (env.node t).name with
  | none => exact dumpStep_of_name_none env rec st t hn
  | some title =>
    by_cases hk : KEYWORDS_TO_SKIP.contains title = true
    · exact dumpStep_of_skip env rec st t title hn hk
    · rw [dumpStep_of_not_target env rec st t title hn
        (Bool.not_eq_true _ ▸ hk) (by rw [isTarget_of_mem env t _ hm]),
        isTarget_of_mem env t _ hm]

theorem dumpNestedTypes_none (env : Env) (fuel : Nat) (st : St) :
    dumpNestedTypes env fuel none st = st := by
  cases fuel with
  | zero => rfl
  | succ f => rfl

theorem dumpNestedTypes_succ_titled (env : Env) (fuel : Nat) (d : Nat)
    (st : St) (h : (hasJSDocTitle env (some d) st.visited).1 = true) :
    dumpNestedTypes env (fuel + 1) (some d) st =
      ⟨(hasJSDocTitle env (some d) st.visited).2, st.out⟩ := by
  simp only [dumpNestedTypes, h, if_true]

theorem dumpNestedTypes_succ_untitled (env : Env) (fuel : Nat) (d : Nat)
    (st : St) (h : (hasJSDocTitle env (some d) st.visited).1 = false) :
    dumpNestedTypes env (fuel + 1) (some d) st =
      (env.node d).descendants.foldl
        (dumpStep env (dumpNestedTypes env fuel)) st := by
  simp only [dumpNestedTypes, h, Bool.false_eq_true, if_false]

/-! Monotonicity: the visited set only grows. -/

theorem dumpStepRec_visited_mono (env : Env)
    (rec : Option Nat → St → St)
    (hrec : ∀ dOpt s, s.visited ⊆ (rec dOpt s).visited) (t : Nat)
    (st2 : St) : st2.visited ⊆ (dumpStepRec env rec t st2).visited := by
  unfold dumpStepRec
  by_cases hu : ((env.node t).isUnion || (env.node t).isInter) = true
  · rw [if_pos hu]
    refine foldl_st_mono _ _ _ (fun s u _ => ?_)
    cases hd : (env.node u).decl with
    | some dd => simpa [hd] using hrec (some dd) s
    | none => simp [hd]
  · rw [if_neg hu]
    by_cases hi : (env.node t).isInterface = true
    · rw [if_pos hi]
      cases hd : (env.node t).decl with
      | some d => exact foldl_st_mono _ _ _ (fun s p _ => hrec p s)
      | none => exact List.Subset.refl _
    · rw [if_neg hi]
      exact List.Subset.refl _

theorem dumpStep_visited_mono (env : Env) (rec : Option Nat → St → St)
    (hrec : ∀ dOpt s, s.visited ⊆ (rec dOpt s).visited) (st : St)
    (t : Nat) : st.visited ⊆ (dumpStep env rec st t).visited := by
  cases hn : jsTruthyS (env.node t).name with
  | none =>
    rw [dumpStep_of_name_none env rec st t hn]
    exact List.Subset.refl _
  | some title =>
    by_cases hk : KEYWORDS_TO_SKIP.contains title = true
    · rw [dumpStep_of_skip env rec st t title hn hk]
      exact List.Subset.refl _
    · have hk' : KEYWORDS_TO_SKIP.contains title = false :=
        Bool.not_eq_true _ ▸ hk
      by_cases hok : (isTarget env t st.visited).1 = true
      · rw [dumpStep_of_target env rec st t title hn hk' hok]
        refine List.Subset.trans (isTarget_snd_sub env t st.visited) ?_
        refine List.Subset.trans (setAdd_sub _ t) ?_
        exact dumpStepRec_visited_mono env rec hrec t
          ⟨setAdd (isTarget env t st.visited).2 t,
           st.out ++ [(t, ⟨title, Schema.nested [⟨"title", title⟩]
                                    (env.node t).declText⟩)]⟩
      · rw [dumpStep_of_not_target env rec st t title hn hk'
          (Bool.not_eq_true _ ▸ hok)]
        exact isTarget_snd_sub env t st.visited

theorem dumpNestedTypes_visited_mono (env : Env) :
    ∀ (fuel : Nat) (dOpt : Option Nat) (st : St),
      st.visited ⊆ (dumpNestedTypes env fuel dOpt st).visited := by
  intro fuel
  induction fuel with
  | zero =>
    intro dOpt st
    cases dOpt with
    | none => exact List.Subset.refl _
    | some d => exact List.Subset.refl _
  | succ f ih =>
    intro dOpt st
    cases dOpt with
    | none =>
      rw [dumpNestedTypes_none]
      exact List.Subset.refl _
    | some d =>
      by_cases ht : (hasJSDocTitle env (some d) st.visited).1 = true
      · rw [dumpNestedTypes_succ_titled env f d st ht]
        exact hasJSDocTitle_snd_sub env (some d) st.visited
      · rw [dumpNestedTypes_succ_untitled env f d st
          (Bool.not_eq_true _ ▸ ht)]
        exact foldl_st_mono _ _ _ (fun s a _ =>
          dumpStep_visited_mono env _ (fun dOpt' s' => ih dOpt' s') s a)

/-! Preservation of the visited-set invariant. -/

theorem dumpStepRec_inv (env : Env) (hwf : envWFb env = true)
    (rec : Option Nat → St → St) (t : Nat) (ht : t < env.n)
    (hrec : ∀ dOpt s, (∀ x, dOpt = some x → x < env.n) → StInv env s →
      StInv env (rec dOpt s)) (st2 : St) (h2 : StInv env st2) :
    StInv env (dumpStepRec env rec t st2) := by
  unfold dumpStepRec
  by_cases hu : ((env.node t).isUnion || (env.node t).isInter) = true
  · rw [if_pos hu]
    refine foldl_preserve (StInv env) _ _ _ h2 (fun s u hu' hs => ?_)
    have hult : u < env.n := (envWFb_spec env hwf t ht).2.2.2.1 u hu'
    cases hd : (env.node u).decl with
    | some dd =>
      simp only [hd]
      exact hrec (some dd) s
        (fun x hx => by
          cases hx
          exact (envWFb_spec env hwf u hult).2.1 dd hd) hs
    | none => simpa [hd] using hs
  · rw [if_neg hu]
    by_cases hi : (env.node t).isInterface = true
    · rw [if_pos hi]
      cases hd : (env.node t).decl with
      | some d =>
        have hdlt : d < env.n := (envWFb_spec env hwf t ht).2.1 d hd
        refine foldl_preserve (StInv env) _ _ _ h2 (fun s p hp hs => ?_)
        exact hrec p s
          (fun x hx => by
            cases hx
            exact (envWFb_spec env hwf d hdlt).2.2.2.2 x hp)
          hs
      | none => exact h2
    · rw [if_neg hi]
      exact h2

theorem dumpStep_inv (env : Env) (hwf : envWFb env = true)
    (rec : Option Nat → St → St) (t : Nat) (ht : t < env.n)
    (hrec : ∀ dOpt s, (∀ x, dOpt = some x → x < env.n) → StInv env s →
      StInv env (rec dOpt s)) (st : St) (hst : StInv env st) :
    StInv env (dumpStep env rec st t) := by
  cases hn : jsTruthyS (env.node t).name with
  | none =>
    rw [dumpStep_of_name_none env rec st t hn]
    exact hst
  | some title =>
    by_cases hk : KEYWORDS_TO_SKIP.contains title = true
    · rw [dumpStep_of_skip env rec st t title hn hk]
      exact hst
    · have hk' : KEYWORDS_TO_SKIP.contains title = false :=
        Bool.not_eq_true _ ▸ hk
      by_cases hok : (isTarget env t st.visited).1 = true
      · rw [dumpStep_of_target env rec st t title hn hk' hok]
        refine dumpStepRec_inv env hwf rec t ht hrec _ ?_
        exact setAdd_vinv env _ t (isTarget_vinv env hwf t ht _ hst) ht
      · rw [dumpStep_of_not_target env rec st t title hn hk'
          (Bool.not_eq_true _ ▸ hok)]
        exact isTarget_vinv env hwf t ht _ hst

theorem dumpNestedTypes_inv (env : Env) (hwf : envWFb env = true) :
    ∀ (fuel : Nat) (dOpt : Option Nat) (st : St),
      (∀ x, dOpt = some x → x < env.n) → StInv env st →
      StInv env (dumpNestedTypes env fuel dOpt st) := by
  intro fuel
  induction fuel with
  | zero =>
    intro dOpt st _ hst
    cases dOpt with
    | none => exact hst
    | some d => exact hst
  | succ f ih =>
    intro dOpt st hd hst
    cases dOpt with
    | none =>
      rw [dumpNestedTypes_none]
      exact hst
    | some d =>
      have hdlt : d < env.n := hd d rfl
      by_cases htl : (hasJSDocTitle env (some d) st.visited).1 = true
      · rw [dumpNestedTypes_succ_titled env f d st htl]
        exact hasJSDocTitle_vinv env hwf (some d) st.visited
          (fun x hx => by cases hx; exact hdlt) hst
      · rw [dumpNestedTypes_succ_untitled env f d st
          (Bool.not_eq_true _ ▸ htl)]
        refine foldl_preserve (StInv env) _ _ _ hst (fun s a ha hs => ?_)
        have halt : a < env.n := (envWFb_spec env hwf d hdlt).2.2.1 a ha
        exact dumpStep_inv env hwf _ a halt
          (fun dOpt' s' hd' hs' => ih dOpt' s' hd' hs') s hs

/-! Preservation of the output invariant. -/

theorem dumpStepRec_outinv (env : Env) (rec : Option Nat → St → St)
    (hrec : ∀ dOpt s, OutInv s → OutInv (rec dOpt s)) (t : Nat)
    (st2 : St) (h2 : OutInv st2) : OutInv (dumpStepRec env rec t st2) := by
  unfold dumpStepRec
  by_cases hu : ((env.node t).isUnion || (env.node t).isInter) = true
  · rw [if_pos hu]
    refine foldl_preserve OutInv _ _ _ h2 (fun s u _ hs => ?_)
    cases hd : (env.node u).decl with
    | some dd =>
      simp only [hd]
      exact hrec (some dd) s hs
    | none => simpa [hd] using hs
  · rw [if_neg hu]
    by_cases hi : (env.node t).isInterface = true
    · rw [if_pos hi]
      cases hd : (env.node t).decl with
      | some d =>
        exact foldl_preserve OutInv _ _ _ h2 (fun s p _ hs => hrec p s hs)
      | none => exact h2
    · rw [if_neg hi]
      exact h2

theorem outinv_extend (st : St) (v : List Nat) (hsub : st.visited ⊆ v)
    (h : OutInv st) : OutInv ⟨v, st.out⟩ := by
  exact ⟨h.1, fun x hx => hsub (h.2 x hx)⟩

theorem dumpStep_outinv (env : Env) (rec : Option Nat → St → St)
    (hrec : ∀ dOpt s, OutInv s → OutInv (rec dOpt s)) (st : St) (t : Nat)
    (hst : OutInv st) : OutInv (dumpStep env rec st t) := by
  cases hn : jsTruthyS (env.node t).name with
  | none =>
    rw [dumpStep_of_name_none env rec st t hn]
    exact hst
  | some title =>
    by_cases hk : KEYWORDS_TO_SKIP.contains title = true
    · rw [dumpStep_of_skip env rec st t title hn hk]
      exact hst
    · have hk' : KEYWORDS_TO_SKIP.contains title = false :=
        Bool.not_eq_true _ ▸ hk
      by_cases hok : (isTarget env t st.visited).1 = true
      · rw [dumpStep_of_target env rec st t title hn hk' hok]
        refine dumpStepRec_outinv env rec hrec t _ ?_
        obtain ⟨hveq, hnm⟩ := isTarget_true_facts env t st.visited hok
        have hnotout : t ∉ st.out.map Prod.fst := fun hmem =>
          hnm (hst.2 t hmem)
        constructor
        · rw [List.map_append]
          refine List.Nodup.append hst.1 (by simp) ?_
          intro a ha ha'
          simp only [List.map_cons, List.map_nil, List.mem_singleton]
            at ha'
          exact hnotout (ha' ▸ ha)
        · intro x hx
          rw [List.map_append] at hx
          rcases List.mem_append.mp hx with hx | hx
          · refine (mem_setAdd_iff _ t x).mpr (Or.inl ?_)
            rw [hveq]
            exact hst.2 x hx
          · simp only [List.map_cons, List.map_nil, List.mem_singleton]
              at hx
            exact (mem_setAdd_iff _ t x).mpr (Or.inr hx)
      · rw [dumpStep_of_not_target env rec st t title hn hk'
          (Bool.not_eq_true _ ▸ hok)]
        exact outinv_extend st _ (isTarget_snd_sub env t st.visited) hst

theorem dumpNestedTypes_outinv (env : Env) :
    ∀ (fuel : Nat) (dOpt : Option Nat) (st : St), OutInv st →
      OutInv (dumpNestedTypes env fuel dOpt st) := by
  intro fuel
  induction fuel with
  | zero =>
    intro dOpt st hst
    cases dOpt with
    | none => exact hst
    | some d => exact hst
  | succ f ih =>
    intro dOpt st hst
    cases dOpt with
    | none =>
      rw [dumpNestedTypes_none]
      exact hst
    | some d =>
      by_cases htl : (hasJSDocTitle env (some d) st.visited).1 = true
      · rw [dumpNestedTypes_succ_titled env f d st htl]
        exact outinv_extend st _
          (hasJSDocTitle_snd_sub env (some d) st.visited) hst
      · rw [dumpNestedTypes_succ_untitled env f d st
          (Bool.not_eq_true _ ▸ htl)]
        refine foldl_preserve OutInv _ _ _ hst (fun s a _ hs => ?_)
        exact dumpStep_outinv env _ (fun dOpt' s' hs' => ih dOpt' s' hs')
          s a hs

/-! Fuel irrelevance: once past the number of nodes, extra fuel changes
nothing, because every recursive call happens on a strictly larger
visited set. -/

theorem dumpStepRec_congr (env : Env) (hwf : envWFb env = true)
    (rec1 rec2 : Option Nat → St → St) (t : Nat) (ht : t < env.n)
    (st2 : St) (h2 : StInv env st2)
    (hrec1inv : ∀ dOpt s', (∀ x, dOpt = some x → x < env.n) →
      StInv env s' → StInv env (rec1 dOpt s'))
    (hrec1mono : ∀ dOpt s', s'.visited ⊆ (rec1 dOpt s').visited)
    (heq : ∀ dOpt s', (∀ x, dOpt = some x → x < env.n) → StInv env s' →
      st2.visited.length ≤ s'.visited.length →
      rec1 dOpt s' = rec2 dOpt s') :
    dumpStepRec env rec1 t st2 = dumpStepRec env rec2 t st2 := by
  have hlenle : ∀ s' : St, StInv env s' → st2.visited ⊆ s'.visited →
      st2.visited.length ≤ s'.visited.length := fun s' _ hsub =>
    nodup_subset_length_le _ _ h2.1 hsub
  unfold dumpStepRec
  by_cases hu : ((env.node t).isUnion || (env.node t).isInter) = true
  · simp only [if_pos hu]
    refine foldl_congr_pres
      (fun s' => StInv env s' ∧ st2.visited ⊆ s'.visited) _ _ _ _
      ⟨h2, List.Subset.refl _⟩ ?_ ?_
    · intro s' u hu' hs'
      have hult : u < env.n := (envWFb_spec env hwf t ht).2.2.2.1 u hu'
      cases hd : (env.node u).decl with
      | some dd =>
        simp only [hd]
        refine heq (some dd) s' (fun x hx => by
          cases hx
          exact (envWFb_spec env hwf u hult).2.1 dd hd) hs'.1
          (hlenle s' hs'.1 hs'.2)
      | none => simp [hd]
    · intro s' u hu' hs'
      have hult : u < env.n := (envWFb_spec env hwf t ht).2.2.2.1 u hu'
      cases hd : (env.node u).decl with
      | some dd =>
        simp only [hd]
        refine ⟨hrec1inv (some dd) s' (fun x hx => by
          cases hx
          exact (envWFb_spec env hwf u hult).2.1 dd hd) hs'.1, ?_⟩
        exact List.Subset.trans hs'.2 (hrec1mono (some dd) s')
      | none => simpa [hd] using hs'
  · simp only [if_neg hu]
    by_cases hi : (env.node t).isInterface = true
    · simp only [if_pos hi]
      cases hd : (env.node t).decl with
      | some d =>
        have hdlt : d < env.n := (envWFb_spec env hwf t ht).2.1 d hd
        refine foldl_congr_pres
          (fun s' => StInv env s' ∧ st2.visited ⊆ s'.visited) _ _ _ _
          ⟨h2, List.Subset.refl _⟩ ?_ ?_
        · intro s' p hp hs'
          refine heq p s' (fun x hx => by
            cases hx
            exact (envWFb_spec env hwf d hdlt).2.2.2.2 x hp) hs'.1
            (hlenle s' hs'.1 hs'.2)
        · intro s' p hp hs'
          refine ⟨hrec1inv p s' (fun x hx => by
            cases hx
            exact (envWFb_spec env hwf d hdlt).2.2.2.2 x hp) hs'.1, ?_⟩
          exact List.Subset.trans hs'.2 (hrec1mono p s')
      | none => rfl
    · simp only [if_neg hi]

theorem dumpStep_congr (env : Env) (hwf : envWFb env = true)
    (rec1 rec2 : Option Nat → St → St) (t : Nat) (ht : t < env.n)
    (s : St) (hs : StInv env s)
    (hrec1inv : ∀ dOpt s', (∀ x, dOpt = some x → x < env.n) →
      StInv env s' → StInv env (rec1 dOpt s'))
    (hrec1mono : ∀ dOpt s', s'.visited ⊆ (rec1 dOpt s').visited)
    (hrec : ∀ dOpt s', (∀ x, dOpt = some x → x < env.n) → StInv env s' →
      s.visited.length < s'.visited.length → rec1 dOpt s' = rec2 dOpt s') :
    dumpStep env rec1 s t = dumpStep env rec2 s t := by
  cases hn : jsTruthyS (env.node t).name with
  | none =>
    rw [dumpStep_of_name_none env rec1 s t hn,
      dumpStep_of_name_none env rec2 s t hn]
  | some title =>
    by_cases hk : KEYWORDS_TO_SKIP.contains title = true
    · rw [dumpStep_of_skip env rec1 s t title hn hk,
        dumpStep_of_skip env rec2 s t title hn hk]
    · have hk' : KEYWORDS_TO_SKIP.contains title = false :=
        Bool.not_eq_true _ ▸ hk
      by_cases hok : (isTarget env t s.visited).1 = true
      · rw [dumpStep_of_target env rec1 s t title hn hk' hok,
          dumpStep_of_target env rec2 s t title hn hk' hok]
        obtain ⟨hveq, hnm⟩ := isTarget_true_facts env t s.visited hok
        have h2 : StInv env
            (⟨setAdd (isTarget env t s.visited).2 t,
              s.out ++ [(t, ⟨title, Schema.nested [⟨"title", title⟩]
                                      (env.node t).declText⟩)]⟩ : St) := by
          show VInv env (setAdd (isTarget env t s.visited).2 t)
          exact setAdd_vinv env _ t (isTarget_vinv env hwf t ht _ hs) ht
        refine dumpStepRec_congr env hwf rec1 rec2 t ht _ h2 hrec1inv
          hrec1mono ?_
        intro dOpt s' hd' hinv' hlen'
        refine hrec dOpt s' hd' hinv' ?_
        have hlen'' : (setAdd (isTarget env t s.visited).2 t).length ≤
            s'.visited.length := hlen'
        have : (setAdd (isTarget env t s.visited).2 t).length =
            s.visited.length + 1 := by
          rw [hveq]
          exact setAdd_length_of_not_mem s.visited t hnm
        omega
      · rw [dumpStep_of_not_target env rec1 s t title hn hk'
          (Bool.not_eq_true _ ▸ hok),
          dumpStep_of_not_target env rec2 s t title hn hk'
            (Bool.not_eq_true _ ▸ hok)]

theorem dump_fuel_eq (env : Env) (hwf : envWFb env = true) :
    ∀ (k f1 f2 : Nat) (dOpt : Option Nat) (st : St),
      (∀ x, dOpt = some x → x < env.n) → StInv env st →
      env.n ≤ st.visited.length + k → k + 1 ≤ f1 → k + 1 ≤ f2 →
      dumpNestedTypes env f1 dOpt st = dumpNestedTypes env f2 dOpt st := by
  intro k
  induction k with
  | zero =>
    intro f1 f2 dOpt st hd hinv hlen hf1 hf2
    obtain ⟨a, rfl⟩ : ∃ a, f1 = a + 1 := ⟨f1 - 1, by omega⟩
    obtain ⟨b, rfl⟩ : ∃ b, f2 = b + 1 := ⟨f2 - 1, by omega⟩
    cases dOpt with
    | none => rw [dumpNestedTypes_none, dumpNestedTypes_none]
    | some d =>
      by_cases htl : (hasJSDocTitle env (some d) st.visited).1 = true
      · rw [dumpNestedTypes_succ_titled env a d st htl,
          dumpNestedTypes_succ_titled env b d st htl]
      · have htl' := Bool.not_eq_true _ ▸ htl
        rw [dumpNestedTypes_succ_untitled env a d st htl',
          dumpNestedTypes_succ_untitled env b d st htl']
        have hdlt : d < env.n := hd d rfl
        refine foldl_congr_pres
          (fun s => StInv env s ∧ st.visited ⊆ s.visited) _ _ _ _
          ⟨hinv, List.Subset.refl _⟩ ?_ ?_
        · intro s aa haa hs
          have halt : aa < env.n :=
            (envWFb_spec env hwf d hdlt).2.2.1 aa haa
          have hmem : aa ∈ s.visited :=
            hs.2 (vinv_full_mem env st.visited hinv (by omega) aa halt)
          rw [dumpStep_of_mem env _ s aa hmem,
            dumpStep_of_mem env _ s aa hmem]
        · intro s aa haa hs
          have halt : aa < env.n :=
            (envWFb_spec env hwf d hdlt).2.2.1 aa haa
          refine ⟨dumpStep_inv env hwf _ aa halt
            (fun dOpt' s' hd' hs' =>
              dumpNestedTypes_inv env hwf a dOpt' s' hd' hs') s hs.1, ?_⟩
          exact List.Subset.trans hs.2
            (dumpStep_visited_mono env _
              (fun dOpt' s' => dumpNestedTypes_visited_mono env a dOpt' s')
              s aa)
  | succ k ih =>
    intro f1 f2 dOpt st hd hinv hlen hf1 hf2
    obtain ⟨a, rfl⟩ : ∃ a, f1 = a + 1 := ⟨f1 - 1, by omega⟩
    obtain ⟨b, rfl⟩ : ∃ b, f2 = b + 1 := ⟨f2 - 1, by omega⟩
    cases dOpt with
    | none => rw [dumpNestedTypes_none, dumpNestedTypes_none]
    | some d =>
      by_cases htl : (hasJSDocTitle env (some d) st.visited).1 = true
      · rw [dumpNestedTypes_succ_titled env a d st htl,
          dumpNestedTypes_succ_titled env b d st htl]
      · have htl' := Bool.not_eq_true _ ▸ htl
        rw [dumpNestedTypes_succ_untitled env a d st htl',
          dumpNestedTypes_succ_untitled env b d st htl']
        have hdlt : d < env.n := hd d rfl
        refine foldl_congr_pres
          (fun s => StInv env s ∧ st.visited ⊆ s.visited) _ _ _ _
          ⟨hinv, List.Subset.refl _⟩ ?_ ?_
        · intro s aa haa hs
          have halt : aa < env.n :=
            (envWFb_spec env hwf d hdlt).2.2.1 aa haa
          refine dumpStep_congr env hwf (dumpNestedTypes env a)
            (dumpNestedTypes env b) aa halt s hs.1
            (fun dOpt' s' hd' hs' =>
              dumpNestedTypes_inv env hwf a dOpt' s' hd' hs')
            (fun dOpt' s' => dumpNestedTypes_visited_mono env a dOpt' s')
            ?_
          intro dOpt' s' hd' hinv' hlen'
          have hstle : st.visited.length ≤ s.visited.length :=
            nodup_subset_length_le _ _ hinv.1 hs.2
          exact ih a b dOpt' s' hd' hinv' (by omega) (by omega) (by omega)
        · intro s aa haa hs
          have halt : aa < env.n :=
            (envWFb_spec env hwf d hdlt).2.2.1 aa haa
          refine ⟨dumpStep_inv env hwf _ aa halt
            (fun dOpt' s' hd' hs' =>
              dumpNestedTypes_inv env hwf a dOpt' s' hd' hs') s hs.1, ?_⟩
          exact List.Subset.trans hs.2
            (dumpStep_visited_mono env _
              (fun dOpt' s' => dumpNestedTypes_visited_mono env a dOpt' s')
              s aa)

/-- C1: on every finite, well-formed type graph — cyclic ones included —
the nested-type resolver terminates: any fuel beyond the number of nodes
computes the same result (the recursion depth is bounded because each
type enters the visited set at most once, strictly before its descendants
are recursed into — in `dumpStep` the `setAdd` precedes `dumpStepRec`),
the visited set stays duplicate-free, and each distinct type contributes
at most one entry to the nested-type output list. -/
theorem dumpNestedTypes_terminates_and_dedups (env : Env)
    (hwf : envWFb env = true) (d : Nat) (hd : d < env.n) :
    (∀ f1 f2, env.n + 1 ≤ f1 → env.n + 1 ≤ f2 →
      dumpNestedTypes env f1 (some d) ⟨[], []⟩ =
        dumpNestedTypes env f2 (some d) ⟨[], []⟩) ∧
    (∀ fuel,
      (dumpNestedTypes env fuel (some d) ⟨[], []⟩).visited.Nodup) ∧
    (∀ fuel, ((dumpNestedTypes env fuel (some d) ⟨[], []⟩).out.map
      Prod.fst).Nodup) := by
  refine ⟨?_, ?_, ?_⟩
  · intro f1 f2 h1 h2
    exact dump_fuel_eq env hwf env.n f1 f2 (some d) ⟨[], []⟩
      (fun x hx => by cases hx; exact hd)
      ⟨List.nodup_nil, by simp⟩ (by simp) h1 h2
  · intro fuel
    exact (dumpNestedTypes_inv env hwf fuel (some d) ⟨[], []⟩
      (fun x hx => by cases hx; exact hd) ⟨List.nodup_nil, by simp⟩).1
  · intro fuel
    exact (dumpNestedTypes_outinv env fuel (some d) ⟨[], []⟩
      ⟨by simp, by simp⟩).1

/-- C1 witness: on the mutually referential graph `A ↔ B` of `envAB`,
extraction completes (fuel 5 = node count + 1 agrees with fuel 6) and
each of `A`, `B` contributes at most one nested entry. -/
theorem dumpNestedTypes_terminates_and_dedups_witness :
    envWFb envAB = true ∧
    dumpNestedTypes envAB 5 (some 0) ⟨[], []⟩ =
      dumpNestedTypes envAB 6 (some 0) ⟨[], []⟩ ∧
    ((dumpNestedTypes envAB 5 (some 0) ⟨[], []⟩).out.map
      Prod.fst).Nodup := by
  have h := dumpNestedTypes_terminates_and_dedups envAB (by decide) 0
    (by decide)
  exact ⟨by decide, h.1 5 6 (by decide) (by decide), h.2.2 5⟩

/-! ## C3: last write wins in the map output -/

theorem lastEntryFor_nil (k : String) : lastEntryFor [] k = none := rfl

theorem lastEntryFor_append (l1 l2 : List Entry) (k : String) :
    lastEntryFor (l1 ++ l2) k =
      (lastEntryFor l2 k).or (lastEntryFor l1 k) := by
  unfold lastEntryFor
  rw [List.filter_append, getLastQ_append_or]
  cases (List.filter (fun e => decide (e.title = k)) l2).getLast? with
  | some x => rfl
  | none => rfl

theorem lastEntryFor_append_single (l : List Entry) (ent : Entry)
    (k : String) :
    lastEntryFor (l ++ [ent]) k =
      if ent.title = k then some ent.schema else lastEntryFor l k := by
  rw [lastEntryFor_append]
  by_cases he : ent.title = k
  · rw [if_pos he]
    have : lastEntryFor [ent] k = some ent.schema := by
      unfold lastEntryFor
      rw [List.filter_cons_of_pos (by simpa using he)]
      rfl
    rw [this]
    rfl
  · rw [if_neg he]
    have : lastEntryFor [ent] k = none := by
      unfold lastEntryFor
      rw [List.filter_cons_of_neg (by simpa using he)]
      rfl
    rw [this]
    cases lastEntryFor l k with
    | some x => rfl
    | none => rfl

theorem objFold_eq_lastEntryFor (es : List Entry)
    (m0 : String → Option Schema) (k : String) :
    (es.foldl (fun m e => objSet m e.title e.schema) m0) k =
      (lastEntryFor es k).or (m0 k) := by
  induction es generalizing m0 with
  | nil => rfl
  | cons e es ih =>
    rw [List.foldl_cons, ih]
    unfold lastEntryFor
    by_cases he : e.title = k
    · rw [List.filter_cons_of_pos (by simpa using he), getLastQ_cons_or]
      have hset : objSet m0 e.title e.schema k = some e.schema := by
        unfold objSet
        rw [if_pos he.symm]
      rw [hset]
      cases (List.filter (fun x => decide (x.title = k)) es).getLast? with
      | some x => rfl
      | none => rfl
    · rw [List.filter_cons_of_neg (by simpa using he)]
      have hset : objSet m0 e.title e.schema k = m0 k := by
        unfold objSet
        rw [if_neg (fun h => he h.symm)]
      rw [hset]

theorem processDecl_untitled (env : Env) (fuel : Nat)
    (defaultT : String → Option DefaultEntry) (strictC : Bool)
    (sorter : Option (PropertyType → PropertyType → Int))
    (fmt : LinkFormatter) (b : BuildSt) (d : Nat)
    (h : jsTruthyS (getDeclarationTags (env.node d).rawTags).title =
      none) :
    processDecl env fuel defaultT strictC sorter fmt b d = b := by
  simp only [processDecl, h]

theorem processDecl_titled (env : Env) (fuel : Nat)
    (defaultT : String → Option DefaultEntry) (strictC : Bool)
    (sorter : Option (PropertyType → PropertyType → Int))
    (fmt : LinkFormatter) (b : BuildSt) (d : Nat) (title : String)
    (h : jsTruthyS (getDeclarationTags (env.node d).rawTags).title =
      some title) :
    ∃ schema st',
      processDecl env fuel defaultT strictC sorter fmt b d =
        ⟨b.schemaList ++ [⟨title, schema⟩],
         objSet b.schemaMap title schema, st'⟩ := by
  simp only [processDecl, h]
  exact ⟨_, _, rfl⟩

theorem buildFold_map_inv (env : Env) (fuel : Nat)
    (defaultT : String → Option DefaultEntry) (strictC : Bool)
    (sorter : Option (PropertyType → PropertyType → Int))
    (fmt : LinkFormatter) (l : List Nat) (b0 : BuildSt)
    (h0 : ∀ k, b0.schemaMap k = lastEntryFor b0.schemaList k) :
    ∀ k, (l.foldl (processDecl env fuel defaultT strictC sorter fmt)
      b0).schemaMap k =
      lastEntryFor ((l.foldl (processDecl env fuel defaultT strictC
        sorter fmt) b0).schemaList) k := by
  refine foldl_preserve
    (fun b => ∀ k, b.schemaMap k = lastEntryFor b.schemaList k) _ l b0 h0
    (fun b d _ hb => ?_)
  cases ht : jsTruthyS (getDeclarationTags (env.node d).rawTags).title
    with
  | none =>
    rw [processDecl_untitled env fuel defaultT strictC sorter fmt b d ht]
    exact hb
  | some title =>
    obtain ⟨schema, st', heq⟩ :=
      processDecl_titled env fuel defaultT strictC sorter fmt b d title ht
    rw [heq]
    intro k
    show objSet b.schemaMap title schema k =
      lastEntryFor (b.schemaList ++ [⟨title, schema⟩]) k
    rw [lastEntryFor_append_single]
    unfold objSet
    by_cases hk : title = k
    · rw [if_pos hk.symm, if_pos hk]
    · rw [if_neg (fun h => hk h.symm), if_neg hk]
      exact hb k

/-- C3: in default (map) mode the returned map is last-write-wins over
the build order — the titled top-level entries in processing order
(`schemaList`) followed by the accumulated nested-type entries — so for
any two distinct declarations or nested types sharing a title, exactly
one entry survives under that title: the later-written one. -/
theorem generateSchema_map_last_write_wins (env : Env) (sf : SourceFileM)
    (cfg : Config) (hmode : cfg.strictDeclarationOrder = false)
    (k : String) :
    outMapFn (generateSchema env sf cfg) k =
      lastEntryFor ((generateSchemaParts env sf cfg).schemaList ++
        (generateSchemaParts env sf cfg).dSt.out.map Prod.snd) k := by
  have hinv : ∀ k', (generateSchemaParts env sf cfg).schemaMap k' =
      lastEntryFor (generateSchemaParts env sf cfg).schemaList k' := by
    intro k'
    unfold generateSchemaParts
    exact buildFold_map_inv env (env.n + 1)
      (cfg.defaultTypeMap.getD defaultTypeMapModel) cfg.strictComment
      cfg.propertySorter (cfg.linkFormatter.getD defaultLinkFormatterModel)
      _ _ (fun _ => rfl) k'
  unfold generateSchema
  rw [hmode]
  simp only [Bool.false_eq_true, if_false, outMapFn]
  by_cases hn :
      ((generateSchemaParts env sf cfg).dSt.out.map Prod.snd).length > 0
  · rw [if_pos hn, lastEntryFor_append,
      objFold_eq_lastEntryFor _ (fun _ => none) k]
    cases lastEntryFor
        ((generateSchemaParts env sf cfg).dSt.out.map Prod.snd) k with
    | some v => rfl
    | none =>
      show (generateSchemaParts env sf cfg).schemaMap k = _
      rw [hinv k]
      rfl
  · rw [if_neg hn]
    have hnil : (generateSchemaParts env sf cfg).dSt.out.map Prod.snd =
        [] := by
      cases hh : (generateSchemaParts env sf cfg).dSt.out.map Prod.snd
        with
      | nil => rfl
      | cons x xs => exact absurd (by rw [hh]; simp) hn
    rw [hnil, List.append_nil]
    exact hinv k

/-- C3 witness: two declarations titled `Dup`; the map holds exactly the
schema of the later-processed one. -/
theorem generateSchema_map_last_write_wins_witness :
    cfgW3.strictDeclarationOrder = false ∧
    outMapFn (generateSchema envW3 sfW3 cfgW3) "Dup" =
      lastEntryFor ((generateSchemaParts envW3 sfW3 cfgW3).schemaList ++
        (generateSchemaParts envW3 sfW3 cfgW3).dSt.out.map Prod.snd)
        "Dup" ∧
    outMapFn (generateSchema envW3 sfW3 cfgW3) "Dup" =
      some (Schema.intf [⟨"title", "Dup"⟩, ⟨"x", "second"⟩] []) := by
  have h := generateSchema_map_last_write_wins envW3 sfW3 cfgW3 rfl "Dup"
  exact ⟨rfl, h, by decide⟩

/-! ## C4: strict-order output is a stable line-number sort -/

theorem insertSorted_mem {α : Type} (le : α → α → Bool) (a : α)
    (l : List α) (x : α) :
    x ∈ insertSorted le a l ↔ x = a ∨ x ∈ l := by
  induction l with
  | nil => simp [insertSorted]
  | cons e es ih =>
    unfold insertSorted
    by_cases hle : le a e = true
    · rw [if_pos hle]
      simp
    · rw [if_neg hle]
      simp [ih]
      tauto

theorem insertSorted_pairwise {α : Type} (le : α → α → Bool)
    (htot : ∀ a b, le a b = true ∨ le b a = true)
    (htrans : ∀ a b c, le a b = true → le b c = true → le a c = true)
    (a : α) (l : List α)
    (hl : l.Pairwise (fun x y => le x y = true)) :
    (insertSorted le a l).Pairwise (fun x y => le x y = true) := by
  induction l with
  | nil => simp [insertSorted]
  | cons e es ih =>
    unfold insertSorted
    by_cases hle : le a e = true
    · rw [if_pos hle]
      refine List.Pairwise.cons ?_ hl
      intro x hx
      rcases List.mem_cons.mp hx with rfl | hx
      · exact hle
      · exact htrans a e x hle ((List.pairwise_cons.mp hl).1 x hx)
    · rw [if_neg hle]
      have hea : le e a = true := by
        rcases htot a e with h | h
        · exact absurd h hle
        · exact h
      obtain ⟨he, hes⟩ := List.pairwise_cons.mp hl
      refine List.Pairwise.cons ?_ (ih hes)
      intro x hx
      rcases (insertSorted_mem le a es x).mp hx with rfl | hx
      · exact hea
      · exact he x hx

theorem sortStable_pairwise {α : Type} (le : α → α → Bool)
    (htot : ∀ a b, le a b = true ∨ le b a = true)
    (htrans : ∀ a b c, le a b = true → le b c = true → le a c = true)
    (l : List α) :
    (sortStable le l).Pairwise (fun x y => le x y = true) := by
  induction l with
  | nil => simp [sortStable]
  | cons a as ih =>
    unfold sortStable
    exact insertSorted_pairwise le htot htrans a _ ih

theorem insertSorted_filter_key {α : Type} (key : α → Nat) (a : α)
    (l : List α) (k : Nat) :
    (insertSorted (fun x y => key x ≤ key y) a l).filter
        (fun x => key x = k) =
      if key a = k then a :: l.filter (fun x => key x = k)
      else l.filter (fun x => key x = k) := by
  induction l with
  | nil =>
    unfold insertSorted
    by_cases hk : key a = k
    · rw [if_pos hk]
      simp [List.filter, hk]
    · rw [if_neg hk]
      simp [List.filter, hk]
  | cons e es ih =>
    unfold insertSorted
    by_cases hle : key a ≤ key e
    · rw [if_pos (by simpa using hle)]
      by_cases hk : key a = k
      · rw [if_pos hk, List.filter_cons_of_pos (by simpa using hk)]
      · rw [if_neg hk, List.filter_cons_of_neg (by simpa using hk)]
    · rw [if_neg (by simpa using hle)]
      have hlt : key e < key a := Nat.lt_of_not_le hle
      by_cases hk : key a = k
      · have hek : ¬(key e = k) := by omega
        rw [if_pos hk, List.filter_cons_of_neg (by simpa using hek),
          List.filter_cons_of_neg (by simpa using hek), ih, if_pos hk]
      · rw [if_neg hk]
        by_cases hek : key e = k
        · rw [List.filter_cons_of_pos (by simpa using hek),
            List.filter_cons_of_pos (by simpa using hek), ih, if_neg hk]
        · rw [List.filter_cons_of_neg (by simpa using hek),
            List.filter_cons_of_neg (by simpa using hek), ih, if_neg hk]

theorem sortStable_filter_key {α : Type} (key : α → Nat) (l : List α)
    (k : Nat) :
    (sortStable (fun x y => key x ≤ key y) l).filter
        (fun x => key x = k) =
      l.filter (fun x => key x = k) := by
  induction l with
  | nil => rfl
  | cons a as ih =>
    unfold sortStable
    rw [insertSorted_filter_key key a _ k, ih]
    by_cases hk : key a = k
    · rw [if_pos hk, List.filter_cons_of_pos (by simpa using hk)]
    · rw [if_neg hk, List.filter_cons_of_neg (by simpa using hk)]

theorem buildFold_titles (env : Env) (fuel : Nat)
    (defaultT : String → Option DefaultEntry) (strictC : Bool)
    (sorter : Option (PropertyType → PropertyType → Int))
    (fmt : LinkFormatter) (l : List Nat) (b0 : BuildSt) :
    ((l.foldl (processDecl env fuel defaultT strictC sorter fmt)
      b0).schemaList).map Entry.title =
      b0.schemaList.map Entry.title ++
        (l.filter (fun d => (jsTruthyS (getDeclarationTags
          (env.node d).rawTags).title).isSome)).map
          (fun d => (jsTruthyS (getDeclarationTags
            (env.node d).rawTags).title).getD "") := by
  induction l generalizing b0 with
  | nil => simp
  | cons d ds ih =>
    rw [List.foldl_cons]
    cases ht : jsTruthyS (getDeclarationTags (env.node d).rawTags).title
      with
    | none =>
      rw [processDecl_untitled env fuel defaultT strictC sorter fmt b0 d
        ht, ih, List.filter_cons_of_neg (by simp [ht])]
    | some title =>
      obtain ⟨schema, st', heq⟩ :=
        processDecl_titled env fuel defaultT strictC sorter fmt b0 d title
          ht
      rw [heq, ih, List.filter_cons_of_pos (by simp [ht])]
      simp [ht]

/-- C4: in strict-order mode the output is the titled top-level entries —
the candidate declarations (interfaces, type aliases, functions, in that
concatenation order) stably sorted by start line — followed by all
nested-type entries; the sort is ascending in line number and preserves
the relative order of equal-line declarations (so lines 5, 1, 3 come out
as 1, 3, 5). -/
theorem generateSchema_strict_order (env : Env) (sf : SourceFileM)
    (cfg : Config) (hmode : cfg.strictDeclarationOrder = true) :
    outListFn (generateSchema env sf cfg) =
      (generateSchemaParts env sf cfg).schemaList ++
        (generateSchemaParts env sf cfg).dSt.out.map Prod.snd ∧
    ((generateSchemaParts env sf cfg).schemaList).map Entry.title =
      ((sortStable
          (fun a b => (env.node a).startLine ≤ (env.node b).startLine)
          (sf.interfaces ++ sf.typeAliases ++ sf.functions)).filter
        (fun d => (jsTruthyS (getDeclarationTags
          (env.node d).rawTags).title).isSome)).map
        (fun d => (jsTruthyS (getDeclarationTags
          (env.node d).rawTags).title).getD "") ∧
    (sortStable (fun a b => (env.node a).startLine ≤ (env.node b).startLine)
        (sf.interfaces ++ sf.typeAliases ++ sf.functions)).Pairwise
      (fun a b => (env.node a).startLine ≤ (env.node b).startLine) ∧
    (∀ k, (sortStable
        (fun a b => (env.node a).startLine ≤ (env.node b).startLine)
        (sf.interfaces ++ sf.typeAliases ++ sf.functions)).filter
          (fun d => (env.node d).startLine = k) =
      (sf.interfaces ++ sf.typeAliases ++ sf.functions).filter
        (fun d => (env.node d).startLine = k)) := by
  refine ⟨?_, ?_, ?_, ?_⟩
  · unfold generateSchema
    rw [hmode]
    simp only [if_true, outListFn]
    by_cases hn :
        ((generateSchemaParts env sf cfg).dSt.out.map Prod.snd).length > 0
    · rw [if_pos hn]
    · rw [if_neg hn]
      have hnil : (generateSchemaParts env sf cfg).dSt.out.map Prod.snd =
          [] := by
        cases hh : (generateSchemaParts env sf cfg).dSt.out.map Prod.snd
          with
        | nil => rfl
        | cons x xs => exact absurd (by rw [hh]; simp) hn
      rw [hnil, List.append_nil]
  · unfold generateSchemaParts
    rw [buildFold_titles]
    rfl
  · exact List.Pairwise.imp (fun h => of_decide_eq_true h)
      (sortStable_pairwise _
        (fun a b => by
          rcases Nat.le_total (env.node a).startLine
            (env.node b).startLine with h | h
          · exact Or.inl (by simpa using h)
          · exact Or.inr (by simpa using h))
        (fun a b c hab hbc => by
          have h1 : (env.node a).startLine ≤ (env.node b).startLine :=
            of_decide_eq_true hab
          have h2 : (env.node b).startLine ≤ (env.node c).startLine :=
            of_decide_eq_true hbc
          simpa using Nat.le_trans h1 h2) _)
  · intro k
    exact sortStable_filter_key (fun d => (env.node d).startLine) _ k

/-- C4 witness: three titled declarations at lines 5, 1, 3 come out
ordered as lines 1, 3, 5, with nested entries after all top-level
entries. -/
theorem generateSchema_strict_order_witness :
    cfgW4.strictDeclarationOrder = true ∧
    (outListFn (generateSchema envW4 sfW4 cfgW4)).map Entry.title =
      ["L1", "L3", "L5"] ∧
    outListFn (generateSchema envW4 sfW4 cfgW4) =
      (generateSchemaParts envW4 sfW4 cfgW4).schemaList ++
        (generateSchemaParts envW4 sfW4 cfgW4).dSt.out.map Prod.snd := by
  have h := generateSchema_strict_order envW4 sfW4 cfgW4 rfl
  exact ⟨rfl, by decide, h.1⟩

/-! ## C8: linkifier dispatch, and which types get visited -/

theorem hasJSDocTitle_not_mem (env : Env) (tex : Nat)
    (dOpt : Option Nat) (v : List Nat)
    (hd : ∀ x, dOpt = some x → x < env.n)
    (hti : ∀ i, i < env.n →
      jsTruthyS (getDeclarationTags (env.node i).rawTags).title = none ∨
      (env.node i).ty ≠ tex)
    (hnm : tex ∉ v) : tex ∉ (hasJSDocTitle env dOpt v).2 := by
  cases dOpt with
  | none => exact hnm
  | some d =>
    simp only [hasJSDocTitle]
    cases hjt : jsTruthyS (getDeclarationTags (env.node d).rawTags).title
      with
    | none => exact hnm
    | some w =>
      rcases hti d (hd d rfl) with h | h
      · rw [hjt] at h
        exact absurd h (by simp)
      · exact not_mem_setAdd v (env.node d).ty tex (fun he => h he.symm)
          hnm

theorem isTarget_not_mem_snd (env : Env) (hwf : envWFb env = true)
    (tex t : Nat) (ht : t < env.n) (v : List Nat)
    (hti : ∀ i, i < env.n →
      jsTruthyS (getDeclarationTags (env.node i).rawTags).title = none ∨
      (env.node i).ty ≠ tex)
    (hnm : tex ∉ v) : tex ∉ (isTarget env t v).2 := by
  by_cases hm : t ∈ v
  · rw [isTarget_of_mem env t v hm]
    exact hnm
  · rw [isTarget_snd_eq env t v hm]
    exact hasJSDocTitle_not_mem env tex (env.node t).decl v
      (fun x hx => (envWFb_spec env hwf t ht).2.1 x hx) hti hnm

theorem isTarget_false_of_nodeModules (env : Env) (t : Nat)
    (v : List Nat) (dt : Nat) (hdt : (env.node t).decl = some dt)
    (hpath : declInNodeModules env (some dt) = true) :
    (isTarget env t v).1 = false := by
  by_cases hm : t ∈ v
  · rw [isTarget_of_mem env t v hm]
  · unfold isTarget
    rw [if_neg hm, hdt]
    by_cases hj : (hasJSDocTitle env (some dt) v).1 = true
    · simp [hj]
    · simp [hj, hpath]

theorem dumpStepRec_preserve (env : Env) (hwf : envWFb env = true)
    (P : St → Prop) (rec : Option Nat → St → St) (t : Nat)
    (ht : t < env.n)
    (hrec : ∀ dOpt s, (∀ x, dOpt = some x → x < env.n) → P s →
      P (rec dOpt s)) (st2 : St) (h2 : P st2) :
    P (dumpStepRec env rec t st2) := by
  unfold dumpStepRec
  by_cases hu : ((env.node t).isUnion || (env.node t).isInter) = true
  · rw [if_pos hu]
    refine foldl_preserve P _ _ _ h2 (fun s u hu' hs => ?_)
    have hult : u < env.n := (envWFb_spec env hwf t ht).2.2.2.1 u hu'
    cases hd : (env.node u).decl with
    | some dd =>
      simp only [hd]
      exact hrec (some dd) s
        (fun x hx => by
          cases hx
          exact (envWFb_spec env hwf u hult).2.1 dd hd) hs
    | none => simpa [hd] using hs
  · rw [if_neg hu]
    by_cases hi : (env.node t).isInterface = true
    · rw [if_pos hi]
      cases hd : (env.node t).decl with
      | some d =>
        have hdlt : d < env.n := (envWFb_spec env hwf t ht).2.1 d hd
        refine foldl_preserve P _ _ _ h2 (fun s p hp hs => ?_)
        exact hrec p s
          (fun x hx => by
            cases hx
            exact (envWFb_spec env hwf d hdlt).2.2.2.2 x hp) hs
      | none => exact h2
    · rw [if_neg hi]
      exact h2

theorem dumpStep_not_mem (env : Env) (hwf : envWFb env = true)
    (tex : Nat)
    (hti : ∀ i, i < env.n →
      jsTruthyS (getDeclarationTags (env.node i).rawTags).title = none ∨
      (env.node i).ty ≠ tex)
    (hext : ∃ dt, (env.node tex).decl = some dt ∧
      declInNodeModules env (some dt) = true)
    (rec : Option Nat → St → St)
    (hrec : ∀ dOpt s, (∀ x, dOpt = some x → x < env.n) →
      tex ∉ s.visited → tex ∉ (rec dOpt s).visited)
    (t : Nat) (ht : t < env.n) (st : St) (hst : tex ∉ st.visited) :
    tex ∉ (dumpStep env rec st t).visited := by
  cases hn : jsTruthyS (env.node t).name with
  | none =>
    rw [dumpStep_of_name_none env rec st t hn]
    exact hst
  | some title =>
    by_cases hk : KEYWORDS_TO_SKIP.contains title = true
    · rw [dumpStep_of_skip env rec st t title hn hk]
      exact hst
    · have hk' : KEYWORDS_TO_SKIP.contains title = false :=
        Bool.not_eq_true _ ▸ hk
      by_cases hok : (isTarget env t st.visited).1 = true
      · have hteq : t ≠ tex := by
          intro he
          obtain ⟨dt, hdt, hpath⟩ := hext
          rw [he] at hok
          rw [isTarget_false_of_nodeModules env tex st.visited dt hdt
            hpath] at hok
          exact absurd hok (by simp)
        rw [dumpStep_of_target env rec st t title hn hk' hok]
        refine dumpStepRec_preserve env hwf
          (fun s => tex ∉ s.visited) rec t ht hrec _ ?_
        show tex ∉ setAdd (isTarget env t st.visited).2 t
        exact not_mem_setAdd _ t tex (fun he => hteq he.symm)
          (isTarget_not_mem_snd env hwf tex t ht st.visited hti hst)
      · rw [dumpStep_of_not_target env rec st t title hn hk'
          (Bool.not_eq_true _ ▸ hok)]
        exact isTarget_not_mem_snd env hwf tex t ht st.visited hti hst

theorem dumpNestedTypes_not_mem (env : Env) (hwf : envWFb env = true)
    (tex : Nat)
    (hti : ∀ i, i < env.n →
      jsTruthyS (getDeclarationTags (env.node i).rawTags).title = none ∨
      (env.node i).ty ≠ tex)
    (hext : ∃ dt, (env.node tex).decl = some dt ∧
      declInNodeModules env (some dt) = true) :
    ∀ (fuel : Nat) (dOpt : Option Nat) (st : St),
      (∀ x, dOpt = some x → x < env.n) → tex ∉ st.visited →
      tex ∉ (dumpNestedTypes env fuel dOpt st).visited := by
  intro fuel
  induction fuel with
  | zero =>
    intro dOpt st _ hst
    cases dOpt with
    | none => exact hst
    | some d => exact hst
  | succ f ih =>
    intro dOpt st hd hst
    cases dOpt with
    | none =>
      rw [dumpNestedTypes_none]
      exact hst
    | some d =>
      have hdlt : d < env.n := hd d rfl
      by_cases htl : (hasJSDocTitle env (some d) st.visited).1 = true
      · rw [dumpNestedTypes_succ_titled env f d st htl]
        exact hasJSDocTitle_not_mem env tex (some d) st.visited
          (fun x hx => by cases hx; exact hdlt) hti hst
      · rw [dumpNestedTypes_succ_untitled env f d st
          (Bool.not_eq_true _ ▸ htl)]
        refine foldl_preserve (fun (s : St) => tex ∉ s.visited) _ _ _ hst
          (fun s a ha hs => ?_)
        have halt : a < env.n := (envWFb_spec env hwf d hdlt).2.2.1 a ha
        exact dumpStep_not_mem env hwf tex hti hext _
          (fun dOpt' s' hd' hs' => ih dOpt' s' hd' hs') a halt s hs

theorem linkForIdent_no_match (env : Env) (nested : List Entry)
    (fmt : LinkFormatter) (txt : String) (visited : List Nat)
    (h : ∀ t ∈ visited, jsTruthyS (env.node t).name ≠ some txt) :
    linkForIdent env nested fmt txt visited = none := by
  induction visited with
  | nil => rfl
  | cons t rest ih =>
    have hne := h t (List.mem_cons_self t rest)
    cases hn : jsTruthyS (env.node t).name with
    | none =>
      simp only [linkForIdent, hn]
      exact ih (fun t' ht' => h t' (List.mem_cons_of_mem t ht'))
    | some nm =>
      have hnm : nm ≠ txt := fun he => hne (by rw [hn, he])
      simp only [linkForIdent, hn]
      rw [if_pos hnm]
      exact ih (fun t' ht' => h t' (List.mem_cons_of_mem t ht'))

theorem linkForIdent_fmt_none (env : Env) (nested : List Entry)
    (fmt : LinkFormatter) (txt : String) (visited : List Nat)
    (hfmt : ∀ r, fmt r = none) :
    linkForIdent env nested fmt txt visited = none := by
  induction visited with
  | nil => rfl
  | cons t rest ih =>
    cases hn : jsTruthyS (env.node t).name with
    | none =>
      simp only [linkForIdent, hn]
      exact ih
    | some nm =>
      simp only [linkForIdent, hn]
      by_cases hnm : nm ≠ txt
      · rw [if_pos hnm]
        exact ih
      · rw [if_neg hnm]
        have hlink : (if (nested.find? (fun e =>
              e.title = nm)).isSome = true then fmt ⟨nm, none, none⟩
            else match (env.node t).decl with
              | some d =>
                match jsTruthyS (getDeclarationTags
                    (env.node d).rawTags).title with
                | some title => fmt ⟨nm, some title, (env.node d).filePath⟩
                | none => none
              | none => none) = none := by
          by_cases hf : (nested.find? (fun e => e.title = nm)).isSome =
            true
          · rw [if_pos hf]
            exact hfmt _
          · rw [if_neg hf]
            cases hdc : (env.node t).decl with
            | some d =>
              simp only [hdc]
              cases hjt : jsTruthyS (getDeclarationTags
                  (env.node d).rawTags).title with
              | some title =>
                simp only [hjt]
                exact hfmt _
              | none => simp only [hjt]
            | none => simp only [hdc]
        rw [hlink]
        exact ih

theorem linkForIdent_accum_hit (env : Env) (nested : List Entry)
    (fmt : LinkFormatter) (txt : String) (t : Nat) (rest : List Nat)
    (l : String) (hn : jsTruthyS (env.node t).name = some txt)
    (hf : (nested.find? (fun e => e.title = txt)).isSome = true)
    (hfmt : fmt ⟨txt, none, none⟩ = some l) :
    linkForIdent env nested fmt txt (t :: rest) = some l := by
  simp only [linkForIdent, hn]
  rw [if_neg (by simp), if_pos hf, hfmt]

theorem linkForIdent_title_hit (env : Env) (nested : List Entry)
    (fmt : LinkFormatter) (txt : String) (t : Nat) (rest : List Nat)
    (d : Nat) (v : String) (l : String)
    (hn : jsTruthyS (env.node t).name = some txt)
    (hf : (nested.find? (fun e => e.title = txt)).isSome = false)
    (hdc : (env.node t).decl = some d)
    (hjt : jsTruthyS (getDeclarationTags (env.node d).rawTags).title =
      some v)
    (hfmt : fmt ⟨txt, some v, (env.node d).filePath⟩ = some l) :
    linkForIdent env nested fmt txt (t :: rest) = some l := by
  simp only [linkForIdent, hn]
  rw [if_neg (by simp), if_neg (by rw [hf]; simp)]
  simp only [hdc, hjt, hfmt]

/-- C8 counterexample: in `envC8`, type `Foo` (id 1) is declared under a
`node_modules` path yet carries a JSDoc title, so the resolver's title
check does visit it, and the linkifier then substitutes the `Foo`
identifier — contradicting the claim that types from external-library
paths are never visited and their identifiers left untouched. -/
theorem titled_external_visited_cex :
    declInNodeModules envC8 ((envC8.node 1).decl) = true ∧
    1 ∈ (dumpNestedTypes envC8 4 (some 0) ⟨[], []⟩).visited ∧
    getDisplayTypeWithLink envC8 "Foo | string"
        ((dumpNestedTypes envC8 4 (some 0) ⟨[], []⟩).out.map Prod.snd)
        (dumpNestedTypes envC8 4 (some 0) ⟨[], []⟩).visited fmtAlways ≠
      "Foo | string" := by
  refine ⟨by decide, by decide, by decide⟩

/-- C8 (corrected): only identifiers exactly matching a visited type's
symbol name are candidates for substitution — an identifier matching no
visited type's name gets no link and is rendered untouched, and a link
function that always declines leaves everything untouched; on a match,
an accumulator entry under that title triggers a name-only link request,
and otherwise a full (name, title, path) request is made only when the
backing declaration carries a truthy title.  Types from external-library
paths whose declarations carry no title tag are never visited (the
original claim's "never visited" fails for titled external declarations,
see the counterexample). -/
theorem linkifier_dispatch_and_untitled_external (env : Env) :
    (∀ nested fmt txt visited,
      (∀ t ∈ visited, jsTruthyS (env.node t).name ≠ some txt) →
      linkForIdent env nested fmt txt visited = none) ∧
    (∀ nested fmt txt visited, (∀ r, fmt r = none) →
      linkForIdent env nested fmt txt visited = none) ∧
    (∀ nested fmt txt t rest l,
      jsTruthyS (env.node t).name = some txt →
      (nested.find? (fun e => e.title = txt)).isSome = true →
      fmt ⟨txt, none, none⟩ = some l →
      linkForIdent env nested fmt txt (t :: rest) = some l) ∧
    (∀ nested fmt txt t rest d v l,
      jsTruthyS (env.node t).name = some txt →
      (nested.find? (fun e => e.title = txt)).isSome = false →
      (env.node t).decl = some d →
      jsTruthyS (getDeclarationTags (env.node d).rawTags).title =
        some v →
      fmt ⟨txt, some v, (env.node d).filePath⟩ = some l →
      linkForIdent env nested fmt txt (t :: rest) = some l) ∧
    (∀ s nested fmt visited,
      (∀ s', Token.ident s' ∈ scratchParse s →
        ∀ t ∈ visited, jsTruthyS (env.node t).name ≠ some s') →
      getDisplayTypeWithLink env s nested visited fmt =
        String.join ((scratchParse s).map Token.text)) ∧
    (∀ tex, envWFb env = true →
      (∀ i, i < env.n →
        jsTruthyS (getDeclarationTags (env.node i).rawTags).title =
          none ∨ (env.node i).ty ≠ tex) →
      (∃ dt, (env.node tex).decl = some dt ∧
        declInNodeModules env (some dt) = true) →
      ∀ fuel dOpt st, (∀ x, dOpt = some x → x < env.n) →
        tex ∉ st.visited →
        tex ∉ (dumpNestedTypes env fuel dOpt st).visited) := by
  refine ⟨linkForIdent_no_match env, linkForIdent_fmt_none env,
    linkForIdent_accum_hit env, linkForIdent_title_hit env, ?_, ?_⟩
  · intro s nested fmt visited hno
    unfold getDisplayTypeWithLink
    congr 1
    refine List.map_congr_left (fun tok htok => ?_)
    cases tok with
    | ident s' =>
      simp only [linkForIdent_no_match env nested fmt s' visited
        (hno s' htok), Token.text]
    | punct s' => rfl
  · intro tex hwf hti hext fuel dOpt st hd hst
    exact dumpNestedTypes_not_mem env hwf tex hti hext fuel dOpt st hd
      hst

/-- C8 witness: in `envC8` with `Foo` visited, a non-matching identifier
gets no link, a matching one with a titled backing declaration gets the
full-form link; in `envC8u` the untitled external type is never
visited. -/
theorem linkifier_dispatch_witness :
    linkForIdent envC8 [] fmtAlways "Bar" [1] = none ∧
    linkForIdent envC8 [] fmtAlways "Foo" [1] = some "link" ∧
    1 ∉ (dumpNestedTypes envC8u 4 (some 0) ⟨[], []⟩).visited := by
  have h := linkifier_dispatch_and_untitled_external envC8
  have hu := linkifier_dispatch_and_untitled_external envC8u
  refine ⟨h.1 [] fmtAlways "Bar" [1] (by decide), ?_, ?_⟩
  · exact h.2.2.2.1 [] fmtAlways "Foo" 1 [] 2 "MyFoo" "link" (by decide)
      (by decide) (by decide) (by decide) (by decide)
  · exact hu.2.2.2.2.2 1 (by decide) (by decide) ⟨2, by decide, by decide⟩
      4 (some 0) ⟨[], []⟩ (fun x hx => by cases hx; decide) (by decide)

end TsDoc
